import Mathlib

/-!
# Verification of the saamt audio-archive engine

A shallow embedding, in Lean 4, of the core data model and algorithms of the
`saamt` toolkit (SFX bank archives, lookup tables, pak-name resolution, the
PS2 VAG container and codec, and the bank/sound import pipelines), together
with proofs and refutations of the specified properties.

Byte strings are modelled as `List Nat` (each element a byte value `< 256`);
machine integers are modelled as `Nat`/`Int` with explicit `% 2^32` at the
points where the source performs `u32` arithmetic or `as u32` casts.
-/

namespace Saamt

/-! ## Pak names (`config/paknames/mod.rs`, `config/paknames/names.rs`) -/

/-- ASCII uppercase of one byte, as `str::to_uppercase` acts on ASCII text. -/
def toUpperByte (c : Nat) : Nat :=
  if 97 ≤ c ∧ c ≤ 122 then c - 32 else c

/-- `name.trim_end_matches(['0', '1', '2'])`: remove the maximal trailing run
of the bytes `'0' | '1' | '2'` (48, 49, 50). -/
def trimEnd012 (s : List Nat) : List Nat :=
  (s.reverse.dropWhile fun c => c == 48 || c == 49 || c == 50).reverse

/-- The `fix_ps2_name!` macro: `name.trim_end_matches(['0','1','2']).to_uppercase()`. -/
def fixPs2Name (s : List Nat) : List Nat :=
  (trimEnd012 s).map toUpperByte

/-- `Iterator::position`: index of the first element satisfying `p`. -/
def position (p : α → Bool) : List α → Option Nat
  | [] => none
  | x :: xs => if p x then some 0 else (position p xs).map (· + 1)

/-- `SFX_DEFAULT_PAK_NAMES`, each name as its ASCII bytes:
`FEET, GENRL, PAIN_A, SCRIPT, SPC_EA, SPC_FA, SPC_GA, SPC_NA, SPC_PA`. -/
def SFX_DEFAULT_PAK_NAMES : List (List Nat) :=
  [ [70,69,69,84], [71,69,78,82,76], [80,65,73,78,95,65], [83,67,82,73,80,84],
    [83,80,67,95,69,65], [83,80,67,95,70,65], [83,80,67,95,71,65],
    [83,80,67,95,78,65], [83,80,67,95,80,65] ]

/-- `STREAM_DEFAULT_PAK_NAMES`, each name as its ASCII bytes:
`AA, ADVERTS, <empty>, AMBIENCE, BEATS, CH, CO, CR, CUTSCENE, DS, HC, MH, MR,
NJ, RE, RG, TK`. -/
def STREAM_DEFAULT_PAK_NAMES : List (List Nat) :=
  [ [65,65], [65,68,86,69,82,84,83], [], [65,77,66,73,69,78,67,69],
    [66,69,65,84,83], [67,72], [67,79], [67,82], [67,85,84,83,67,69,78,69],
    [68,83], [72,67], [77,72], [77,82], [78,74], [82,69], [82,71], [84,75] ]

/-- `PakNames::get_pak_idx_from_name`: `None` on the empty name, otherwise the
position of the first stored name equal to the canonicalized input, cast
`as u8` (`% 256`). -/
def getPakIdxFromName (names : List (List Nat)) (name : List Nat) : Option Nat :=
  if name.isEmpty then none
  else (position (fun n => n == fixPs2Name name) names).map (· % 256)

/-- The canonicalization as the claim words it: strip a SINGLE trailing digit
from `{0,1,2}`, then uppercase.  (Stated from the spec's words, for
comparison with `fixPs2Name`, which the source actually computes.) -/
def fixPs2NameSingle (s : List Nat) : List Nat :=
  (match s.reverse with
   | c :: rest => if c == 48 || c == 49 || c == 50 then rest.reverse else s
   | [] => s).map toUpperByte

/-- Lookup as described by the claim: first position of the single-digit
canonical name. -/
def getPakIdxFromNameSingle (names : List (List Nat)) (name : List Nat) : Option Nat :=
  if name.isEmpty then none
  else (position (fun n => n == fixPs2NameSingle name) names).map (· % 256)

/-- Characterization of `position`. -/
theorem position_eq_some_iff (p : α → Bool) (l : List α) (i : Nat) :
    position p l = some i ↔
      ∃ x, l.get? i = some x ∧ p x = true ∧ ∀ j, j < i → ∀ y, l.get? j = some y → p y = false := by
  induction l generalizing i with
  | nil => simp [position]
  | cons x xs ih =>
    by_cases hx : p x
    · simp only [position, hx, if_pos]
      constructor
      · rintro h
        cases h
        exact ⟨x, rfl, hx, fun j hj => by omega⟩
      · rintro ⟨y, hy, hpy, hmin⟩
        cases i with
        | zero => rfl
        | succ n =>
          exfalso
          have := hmin 0 (Nat.succ_pos n) x rfl
          rw [hx] at this
          exact Bool.noConfusion this
    · simp only [position, hx, if_neg, Bool.false_eq_true, not_false_iff]
      cases i with
      | zero =>
        simp only [Option.map_eq_some']
        constructor
        · rintro ⟨a, _, h⟩; omega
        · rintro ⟨y, hy, hpy, _⟩
          simp only [List.get?] at hy
          cases hy
          rw [hpy] at hx
          exact absurd rfl hx
      | succ n =>
        simp only [Option.map_eq_some']
        constructor
        · rintro ⟨a, ha, hai⟩
          have han : a = n := by omega
          rw [han] at ha
          obtain ⟨y, hy, hpy, hmin⟩ := (ih n).mp ha
          refine ⟨y, hy, hpy, fun j hj z hz => ?_⟩
          cases j with
          | zero =>
            simp only [List.get?] at hz
            cases hz
            simpa using hx
          | succ m => exact hmin m (by omega) z hz
        · rintro ⟨y, hy, hpy, hmin⟩
          refine ⟨n, (ih n).mpr ⟨y, hy, hpy, fun j hj z hz => hmin (j+1) (by omega) z hz⟩, rfl⟩

/-- A successful `position` returns an in-range index. -/
theorem position_lt_length (p : α → Bool) (l : List α) (i : Nat)
    (h : position p l = some i) : i < l.length := by
  obtain ⟨x, hx, -, -⟩ := (position_eq_some_iff p l i).mp h
  exact (List.get?_eq_some.mp hx).1

/-- **C6** (counterexample): the claim describes the canonicalization as
stripping a SINGLE trailing digit from `{0,1,2}`; the source strips the whole
trailing run.  On the SFX default set and the input name `"FEET00"`, the code
returns `some 0` (both zeros stripped, matching `FEET`) while the
single-digit reading yields `none` (`FEET0` is no pak name). -/
theorem C6_counterexample :
    getPakIdxFromName SFX_DEFAULT_PAK_NAMES [70,69,69,84,48,48] ≠
      getPakIdxFromNameSingle SFX_DEFAULT_PAK_NAMES [70,69,69,84,48,48] ∧
    getPakIdxFromName SFX_DEFAULT_PAK_NAMES [70,69,69,84,48,48] = some 0 ∧
    getPakIdxFromNameSingle SFX_DEFAULT_PAK_NAMES [70,69,69,84,48,48] = none := by
  refine ⟨?_, ?_, ?_⟩ <;> decide

/-- **C6** (amended): for every pak-name set of at most 256 names and every
input name, `get_pak_idx_from_name` returns `some i` exactly when `i` is the
position of the first set element equal to the input uppercased after
stripping the maximal trailing run of digits from `{0,1,2}`; and the empty
input name always returns `none` (even for the Stream set, which contains the
empty string as a member). -/
theorem C6_pak_name_lookup (names : List (List Nat)) (name : List Nat) (i : Nat)
    (hlen : names.length ≤ 256) :
    (getPakIdxFromName names name = some i ↔
      name ≠ [] ∧ names.get? i = some (fixPs2Name name) ∧
        ∀ j, j < i → names.get? j ≠ some (fixPs2Name name)) ∧
    getPakIdxFromName names [] = none := by
  constructor
  · unfold getPakIdxFromName
    by_cases hempty : name.isEmpty
    · simp only [hempty, if_pos]
      constructor
      · intro h; exact absurd h (by simp)
      · rintro ⟨hne, -, -⟩
        exact absurd (List.isEmpty_iff.mp hempty) hne
    · simp only [hempty, if_neg, Bool.false_eq_true, not_false_iff,
        Option.map_eq_some']
      constructor
      · rintro ⟨a, ha, hmod⟩
        have halt : a < names.length := position_lt_length _ _ _ ha
        have hai : a = i := by omega
        subst hai
        obtain ⟨y, hy, hpy, hmin⟩ := (position_eq_some_iff _ _ _).mp ha
        rw [beq_iff_eq] at hpy
        subst hpy
        refine ⟨fun hn => by simp [hn] at hempty, hy, fun j hj hjy => ?_⟩
        have := hmin j hj _ hjy
        simp at this
      · rintro ⟨hne, hi, hmin⟩
        refine ⟨i, (position_eq_some_iff _ _ _).mpr
          ⟨fixPs2Name name, hi, by simp, fun j hj y hjy => ?_⟩, ?_⟩
        · rw [beq_eq_false_iff_ne]
          intro hcontra
          subst hcontra
          exact hmin j hj hjy
        · have : i < names.length := (List.get?_eq_some.mp hi).1
          omega
  · simp [getPakIdxFromName]

/-- **C6** witness: the theorem applied to the SFX set and `"feet2"`,
giving `index_of "feet2" = some 0`. -/
theorem C6_pak_name_lookup_witness :
    getPakIdxFromName SFX_DEFAULT_PAK_NAMES [102,101,101,116,50] = some 0 :=
  (C6_pak_name_lookup SFX_DEFAULT_PAK_NAMES [102,101,101,116,50] 0 (by decide)).1.mpr
    (by refine ⟨by decide, by decide, ?_⟩; intro j hj; omega)

/-! ## Lookup table (`config/lookuptable/mod.rs`) and archive loading
(`sfx/mod.rs`, `SfxManager::get_sorted_lookup_table`) -/

/-- One 12-byte lookup record: `{ index: u8, padding: [u8;3], offset: u32,
length: u32 }`. -/
structure LookUpEntry where
  index : Nat
  padding : List Nat
  offset : Nat
  length : Nat
  deriving Repr, DecidableEq

/-- `BankHeader::SIZE = 4 + 400 * 12`. -/
def BankHeaderSIZE : Nat := 4 + 400 * 12

/-- `LookUpTable::count_entries_matching_pak_idx`. -/
def countEntriesMatchingPakIdx (entries : List LookUpEntry) (idx : Nat) : Nat :=
  (entries.filter fun e => e.index == idx).length

/-- `LookUpTable::matching_entries`: enumerate, filter on `index == idx`,
keeping each entry's original table position. -/
def matchingEntries (entries : List LookUpEntry) (idx : Nat) : List (Nat × LookUpEntry) :=
  entries.enum.filter fun p => p.2.index == idx

/-- `is_banks_sorted` over the working list of `(orig_index, (dense_index,
entry))` triples: consecutive entries must be back-to-back, i.e.
`(a.offset + a.length) + BankHeader::SIZE == b.offset` (the `u32` sum wraps
`mod 2^32` before widening to `usize`). -/
def isBanksSorted : List (Nat × Nat × LookUpEntry) → Bool
  | a :: b :: rest =>
      ((a.2.2.offset + a.2.2.length) % 4294967296 + BankHeaderSIZE == b.2.2.offset)
        && isBanksSorted (b :: rest)
  | _ => true

/-- Stable insertion of one working triple into a list sorted ascending by
`offset` (the comparison used by `sort_by(e1.offset.cmp(&e2.offset))`). -/
def insertByOffset (x : Nat × Nat × LookUpEntry) :
    List (Nat × Nat × LookUpEntry) → List (Nat × Nat × LookUpEntry)
  | [] => [x]
  | y :: ys =>
      if x.2.2.offset ≤ y.2.2.offset then x :: y :: ys else y :: insertByOffset x ys

/-- The stable ascending sort by `offset` performed by `Vec::sort_by`. -/
def sortByOffset (l : List (Nat × Nat × LookUpEntry)) :
    List (Nat × Nat × LookUpEntry) :=
  l.foldr insertByOffset []

/-- The working list built in `get_sorted_lookup_table`: matching entries
zipped with a dense `0..n` enumeration, shaped as `(orig_index, (dense,
entry))`. -/
def denseLookup (entries : List LookUpEntry) (idx : Nat) :
    List (Nat × Nat × LookUpEntry) :=
  (matchingEntries entries idx).enum.map fun p => (p.2.1, (p.1, p.2.2))

/-- Errors of the archive engine (the variants the model reaches). -/
inductive SfxError where
  | CantFindInLookupTable
  | NoEntryMatch
  | UnsortedSfxBanks
  | CantFindIndexInLookUpTable
  | Io
  deriving Repr, DecidableEq

/-- `SfxManager::get_sorted_lookup_table`: resolve the pak index from the
basename, collect matching entries, require at least one, check the
back-to-back invariant, sorting once by offset when the first check fails;
returns the `(dense, entry)` list, the original indices, and whether sorting
was required. -/
def getSortedLookupTable (pakNames : List (List Nat)) (entries : List LookUpEntry)
    (basename : List Nat) :
    Except SfxError (List (Nat × LookUpEntry) × List Nat × Bool) :=
  match getPakIdxFromName pakNames basename with
  | none => .error .CantFindInLookupTable
  | some lookupIdx =>
    if countEntriesMatchingPakIdx entries lookupIdx = 0 then
      .error .NoEntryMatch
    else if isBanksSorted (denseLookup entries lookupIdx) then
      .ok ((denseLookup entries lookupIdx).map (fun p => p.2),
           (denseLookup entries lookupIdx).map (fun p => p.1), false)
    else if isBanksSorted (sortByOffset (denseLookup entries lookupIdx)) then
      .ok ((sortByOffset (denseLookup entries lookupIdx)).map (fun p => p.2),
           (sortByOffset (denseLookup entries lookupIdx)).map (fun p => p.1), true)
    else .error .UnsortedSfxBanks

/-- The back-to-back chain on plain entries (used to state what the returned
lookup satisfies). -/
def entriesChain : List LookUpEntry → Bool
  | a :: b :: rest =>
      ((a.offset + a.length) % 4294967296 + BankHeaderSIZE == b.offset)
        && entriesChain (b :: rest)
  | _ => true

theorem isBanksSorted_eq_entriesChain (l : List (Nat × Nat × LookUpEntry)) :
    isBanksSorted l = entriesChain (l.map fun p => p.2.2) := by
  induction l with
  | nil => rfl
  | cons a rest ih =>
    cases rest with
    | nil => rfl
    | cons b rest' =>
      simp only [isBanksSorted, List.map, entriesChain]
      rw [ih]
      simp only [List.map]

theorem enumFrom_filter_length (p : LookUpEntry → Bool) (entries : List LookUpEntry)
    (n : Nat) :
    ((List.enumFrom n entries).filter fun q => p q.2).length
      = (entries.filter p).length := by
  induction entries generalizing n with
  | nil => rfl
  | cons e rest ih =>
    simp only [List.enumFrom, List.filter]
    by_cases h : p e
    · simp only [h, List.length_cons, ih]
    · simp only [h, ih]

theorem matchingEntries_length (entries : List LookUpEntry) (idx : Nat) :
    (matchingEntries entries idx).length = countEntriesMatchingPakIdx entries idx :=
  enumFrom_filter_length (fun e => e.index == idx) entries 0

/-- **C7**: when loading an archive whose basename resolves to `pakIdx`, the
matched entries are checked pairwise for `a.offset + a.length +
BankHeader::SIZE == b.offset`; on failure they are sorted ascending by
`offset` and re-checked; `UnsortedSfxBanks` is returned exactly when the
re-check also fails; on success the returned entries satisfy the chain and
the warning flag is set if and only if the sort was required; and when no
entry matches the pak index the result is the no-entry error. -/
theorem C7_load_lookup_checks (pakNames : List (List Nat))
    (entries : List LookUpEntry) (basename : List Nat) (pakIdx : Nat)
    (hresolve : getPakIdxFromName pakNames basename = some pakIdx) :
    (matchingEntries entries pakIdx = [] →
        getSortedLookupTable pakNames entries basename = .error .NoEntryMatch) ∧
    (getSortedLookupTable pakNames entries basename = .error .UnsortedSfxBanks ↔
        matchingEntries entries pakIdx ≠ [] ∧
        isBanksSorted (denseLookup entries pakIdx) = false ∧
        isBanksSorted (sortByOffset (denseLookup entries pakIdx)) = false) ∧
    (∀ lk idxs warn,
        getSortedLookupTable pakNames entries basename = .ok (lk, idxs, warn) →
          entriesChain (lk.map fun p => p.2) = true ∧
          (warn = true ↔ isBanksSorted (denseLookup entries pakIdx) = false)) := by
  have hcount : countEntriesMatchingPakIdx entries pakIdx = 0 ↔
      matchingEntries entries pakIdx = [] := by
    rw [← matchingEntries_length, List.length_eq_zero]
  have hcomp : ∀ l : List (Nat × Nat × LookUpEntry),
      entriesChain ((l.map fun p => p.2).map fun p => p.2) = isBanksSorted l := by
    intro l
    rw [List.map_map, isBanksSorted_eq_entriesChain]
    rfl
  have key : getSortedLookupTable pakNames entries basename =
      (if countEntriesMatchingPakIdx entries pakIdx = 0 then .error .NoEntryMatch
       else if isBanksSorted (denseLookup entries pakIdx) = true then
         .ok ((denseLookup entries pakIdx).map (fun p => p.2),
              (denseLookup entries pakIdx).map (fun p => p.1), false)
       else if isBanksSorted (sortByOffset (denseLookup entries pakIdx)) = true then
         .ok ((sortByOffset (denseLookup entries pakIdx)).map (fun p => p.2),
              (sortByOffset (denseLookup entries pakIdx)).map (fun p => p.1), true)
       else .error .UnsortedSfxBanks) := by
    unfold getSortedLookupTable
    rw [hresolve]
  rw [key]
  by_cases h0 : countEntriesMatchingPakIdx entries pakIdx = 0
  · rw [if_pos h0]
    refine ⟨fun _ => rfl, ?_, ?_⟩
    · constructor
      · intro h
        exact absurd (Except.error.inj h) (by decide)
      · rintro ⟨hne, -, -⟩
        exact absurd (hcount.mp h0) hne
    · intro lk idxs warn h
      exact Except.noConfusion h
  · rw [if_neg h0]
    have hne : matchingEntries entries pakIdx ≠ [] := fun h => h0 (hcount.mpr h)
    by_cases h1 : isBanksSorted (denseLookup entries pakIdx) = true
    · rw [if_pos h1]
      refine ⟨fun h => absurd h hne, ?_, ?_⟩
      · constructor
        · intro h
          exact Except.noConfusion h
        · rintro ⟨-, hfalse, -⟩
          rw [h1] at hfalse
          exact Bool.noConfusion hfalse
      · intro lk idxs warn h
        rw [Except.ok.injEq, Prod.mk.injEq, Prod.mk.injEq] at h
        obtain ⟨hlk, -, hwarn⟩ := h
        subst hlk
        refine ⟨by rw [hcomp]; exact h1, ?_⟩
        rw [← hwarn, h1]
        simp
    · rw [if_neg h1]
      by_cases h2 : isBanksSorted (sortByOffset (denseLookup entries pakIdx)) = true
      · rw [if_pos h2]
        refine ⟨fun h => absurd h hne, ?_, ?_⟩
        · constructor
          · intro h
            exact Except.noConfusion h
          · rintro ⟨-, -, hfalse⟩
            rw [h2] at hfalse
            exact Bool.noConfusion hfalse
        · intro lk idxs warn h
          rw [Except.ok.injEq, Prod.mk.injEq, Prod.mk.injEq] at h
          obtain ⟨hlk, -, hwarn⟩ := h
          subst hlk
          refine ⟨by rw [hcomp]; exact h2, ?_⟩
          rw [← hwarn]
          simp only [Bool.not_eq_true] at h1
          rw [h1]
          simp
      · rw [if_neg h2]
        refine ⟨fun h => absurd h hne, ?_, ?_⟩
        · constructor
          · intro _
            exact ⟨hne, by simpa using h1, by simpa using h2⟩
          · intro _
            rfl
        · intro lk idxs warn h
          exact Except.noConfusion h

/-- **C7** witness: a two-entry table for `FEET` whose entries are
back-to-back loads without sorting and without the warning flag. -/
theorem C7_load_lookup_checks_witness :
    entriesChain [⟨0, [0,0,0], 0, 10⟩, ⟨0, [0,0,0], 4814, 20⟩] = true ∧
    (false = true ↔ isBanksSorted (denseLookup
      [⟨0, [0,0,0], 0, 10⟩, ⟨0, [0,0,0], 4814, 20⟩] 0) = false) := by
  have h := (C7_load_lookup_checks SFX_DEFAULT_PAK_NAMES
      [⟨0, [0,0,0], 0, 10⟩, ⟨0, [0,0,0], 4814, 20⟩] [70,69,69,84] 0
      (by decide)).2.2
      [(0, ⟨0, [0,0,0], 0, 10⟩), (1, ⟨0, [0,0,0], 4814, 20⟩)] [0, 1] false
      rfl
  exact h

/-! ## Sound entries, derived sizes and raw-sound iteration
(`sfx/structures.rs`, `sfx/sound.rs`) -/

/-- A bank-header sound entry: the four on-disk fields plus the derived
in-memory `size`. -/
structure SoundEntry where
  offset : Nat
  loopOffset : Nat
  sampleRate : Nat
  headroom : Nat
  size : Nat
  deriving Repr, DecidableEq

/-- `generate_sizes`: each entry's `size` is the gap to the next entry's
offset (`next.offset - current.offset`, an unchecked `u32` subtraction), or
`len - current.offset` (unchecked `usize` subtraction) for the last entry.
`none` models the panic the unchecked subtraction produces when the
minuend is smaller. -/
def generateSizes : List SoundEntry → Nat → Option (List SoundEntry)
  | [], _ => some []
  | [e], len =>
      if e.offset ≤ len then some [{ e with size := len - e.offset }] else none
  | e :: e2 :: rest, len =>
      if e.offset ≤ e2.offset then
        (generateSizes (e2 :: rest) len).map ({ e with size := e2.offset - e.offset } :: ·)
      else none

/-- `RawSounds::next`, iterated to the end: each entry yields the slice
`bytes[offset .. offset + size]`; `none` models the slice-index panic when
the range exceeds the payload ("we don't check bounds at all"). -/
def rawSounds (bytes : List Nat) : List SoundEntry → Option (List (List Nat))
  | [] => some []
  | e :: rest =>
      if e.offset + e.size ≤ bytes.length then
        (rawSounds bytes rest).map (((bytes.drop e.offset).take e.size) :: ·)
      else none

/-- The unstated well-formedness precondition of C10: sound-entry offsets
are non-decreasing and every offset is at most the bank payload length. -/
def offsetsWellFormed : List SoundEntry → Nat → Bool
  | [], _ => true
  | [e], len => e.offset ≤ len
  | e :: e2 :: rest, len =>
      decide (e.offset ≤ e2.offset) && offsetsWellFormed (e2 :: rest) len

theorem offsetsWellFormed_all_le (entries : List SoundEntry) (len : Nat)
    (h : offsetsWellFormed entries len = true) :
    ∀ e ∈ entries, e.offset ≤ len := by
  induction entries with
  | nil => intro e he; cases he
  | cons a rest ih =>
    cases rest with
    | nil =>
      intro e he
      rcases List.mem_singleton.mp he with rfl
      simpa [offsetsWellFormed] using h
    | cons b rest' =>
      simp only [offsetsWellFormed, Bool.and_eq_true, decide_eq_true_eq] at h
      obtain ⟨hab, hrest⟩ := h
      intro e he
      rcases List.mem_cons.mp he with rfl | he'
      · have hb : b.offset ≤ len := ih hrest b (List.mem_cons_self b rest')
        omega
      · exact ih hrest e he'

/-- **C10**: under the unstated precondition (non-decreasing offsets, all at
most the payload length) size derivation is total and `RawSounds` yields
exactly one in-bounds slice per entry; outside it, the unchecked subtraction
and the unchecked slice panic (modelled by `none`) on concrete inputs. -/
theorem C10_bank_iteration_totality :
    (∀ (entries : List SoundEntry) (len : Nat) (bytes : List Nat),
      offsetsWellFormed entries len = true → bytes.length = len →
      ∃ sized, generateSizes entries len = some sized ∧
        sized.length = entries.length ∧
        ∃ sounds, rawSounds bytes sized = some sounds ∧
          sounds.length = entries.length) ∧
    generateSizes [⟨5, 0, 0, 0, 0⟩] 0 = none ∧
    generateSizes [⟨7, 0, 0, 0, 0⟩, ⟨2, 0, 0, 0, 0⟩] 10 = none ∧
    rawSounds [0, 1] [⟨1, 0, 0, 0, 4⟩] = none := by
  refine ⟨?_, by decide, by decide, by decide⟩
  intro entries
  induction entries with
  | nil =>
    intro len bytes _ _
    exact ⟨[], rfl, rfl, [], rfl, rfl⟩
  | cons a rest ih =>
    intro len bytes hwf hlen
    cases rest with
    | nil =>
      have ha : a.offset ≤ len := by simpa [offsetsWellFormed] using hwf
      refine ⟨[{ a with size := len - a.offset }], ?_, rfl, ?_⟩
      · simp [generateSizes, ha]
      · refine ⟨[(bytes.drop a.offset).take (len - a.offset)], ?_, rfl⟩
        simp only [rawSounds]
        rw [if_pos (show a.offset + (len - a.offset) ≤ bytes.length by omega)]
        rfl
    | cons b rest' =>
      simp only [offsetsWellFormed, Bool.and_eq_true, decide_eq_true_eq] at hwf
      obtain ⟨hab, hrest⟩ := hwf
      obtain ⟨sized, hsized, hslen, sounds, hsounds, hsoundslen⟩ :=
        ih len bytes hrest hlen
      refine ⟨{ a with size := b.offset - a.offset } :: sized, ?_, by simp [hslen], ?_⟩
      · simp only [generateSizes, hab, if_pos, hsized, Option.map_some']
      · refine ⟨(bytes.drop a.offset).take (b.offset - a.offset) :: sounds, ?_,
          by simp [hsoundslen]⟩
        have hb : b.offset ≤ len :=
          offsetsWellFormed_all_le _ _ hrest b (List.mem_cons_self b rest')
        simp only [rawSounds]
        rw [if_pos (show a.offset + (b.offset - a.offset) ≤ bytes.length by omega),
          hsounds]
        rfl

/-- **C10** witness: the totality branch applied to a concrete two-entry
bank with contiguous offsets and a four-byte payload. -/
theorem C10_bank_iteration_totality_witness :
    ∃ sized, generateSizes [⟨0, 0, 0, 0, 0⟩, ⟨2, 0, 0, 0, 0⟩] 4 = some sized ∧
      sized.length = 2 ∧
      ∃ sounds, rawSounds [9, 9, 9, 9] sized = some sounds ∧ sounds.length = 2 :=
  C10_bank_iteration_totality.1 [⟨0, 0, 0, 0, 0⟩, ⟨2, 0, 0, 0, 0⟩] 4 [9, 9, 9, 9]
    (by decide) (by decide)

/-! ## Banks, header serialization and the sound-import pipeline
(`sfx/structures.rs`, `sfx/bank.rs`, `sfx/mod.rs`, `sfx/platforms/raw.rs`) -/

/-- `BankHeader`: the on-disk `padding` word and the sound entries
(`num_sounds` is derived as `sound_entries.len()` on write). -/
structure BankHeader where
  padding : Nat
  soundEntries : List SoundEntry
  deriving Repr, DecidableEq

/-- A loaded bank: dense index, header, payload bytes. -/
structure Bank where
  index : Nat
  header : BankHeader
  bytes : List Nat
  deriving Repr, DecidableEq

/-- `width` bytes of `value`, little-endian (the `binrw` little-endian
writer for `u16`/`u32` fields). -/
def natLE : Nat → Nat → List Nat
  | 0, _ => []
  | w + 1, value => value % 256 :: natLE w (value / 256)

/-- The 12 on-disk bytes of a `SoundEntry` (the derived `size` is
`#[brw(ignore)]`). -/
def writeSoundEntry (e : SoundEntry) : List Nat :=
  natLE 4 e.offset ++ natLE 4 e.loopOffset ++ natLE 2 e.sampleRate ++ natLE 2 e.headroom

/-- `BankHeader` serialization: `num_sounds = len() as u16`, `padding`, the
entries, zero-padded to `400 * SoundEntry::SIZE` bytes (`pad_size_to`). -/
def writeBankHeader (h : BankHeader) : List Nat :=
  natLE 2 h.soundEntries.length ++ natLE 2 h.padding
    ++ (h.soundEntries.map writeSoundEntry).flatten
    ++ List.replicate (400 * 12 - 12 * h.soundEntries.length) 0

/-- `Bank::to_writer`: header then payload. -/
def serializeBank (b : Bank) : List Nat :=
  writeBankHeader b.header ++ b.bytes

/-- `Bank::len`: payload plus header size. -/
def Bank.len (b : Bank) : Nat :=
  b.bytes.length + BankHeaderSIZE

/-- The per-bank entry walk of `SfxArchive::import_sounds` (Raw adapter:
replacement bytes are the file's contents and become the entry's new
`size`).  Arguments: the replacement sound-index set, the replacement file
contents per sound index, the ORIGINAL bank payload, the running entry
index and `sound_offset`, and the entries still to walk.  For each entry
the code first sets `entry.offset = sound_offset`; a non-replaced entry is
then copied from `bank.bytes[entry.offset .. entry.offset + entry.size]` —
the freshly OVERWRITTEN offset — and `none` models the slice panic.
`sound_offset` advances by `entry.size as u32`. -/
def processSoundEntries (files : List Nat) (data : Nat → List Nat)
    (bytes : List Nat) : Nat → Nat → List SoundEntry →
    Option (List SoundEntry × List Nat)
  | _, _, [] => some ([], [])
  | idx, soffset, e :: rest =>
      if files.contains idx then
        (processSoundEntries files data bytes (idx + 1)
            ((soffset + (data idx).length) % 4294967296) rest).map
          fun p => ({ e with offset := soffset, size := (data idx).length } :: p.1,
                    data idx ++ p.2)
      else
        if soffset + e.size ≤ bytes.length then
          (processSoundEntries files data bytes (idx + 1)
              ((soffset + e.size) % 4294967296) rest).map
            fun p => ({ e with offset := soffset } :: p.1,
                      (bytes.drop soffset).take e.size ++ p.2)
        else none

/-- **C1**: evaluation of the sound-import walk at a failing input.  Bank
payload `[10,11,12,13]` with two 2-byte sounds at offsets 0 and 2; sound 0
is replaced by the 1-byte file `[7]`.  The claim says sound 1 contributes
its original slice `bytes[2..4] = [12,13]`; the code, having already set
`entry.offset` to the running `sound_offset = 1`, copies `bytes[1..3] =
[11,12]` instead. -/
theorem C1_sound_import_copies_shifted_slice :
    processSoundEntries [0] (fun _ => [7]) [10, 11, 12, 13] 0 0
        [⟨0, 0, 0, 0, 2⟩, ⟨2, 0, 0, 0, 2⟩] =
      some ([⟨0, 0, 0, 0, 1⟩, ⟨1, 0, 0, 0, 2⟩], [7, 11, 12]) ∧
    (([10, 11, 12, 13].drop 2).take 2 : List Nat) = [12, 13] ∧
    [7, 11, 12] ≠ [7] ++ ([10, 11, 12, 13].drop 2).take 2 := by
  refine ⟨by decide, by decide, by decide⟩

/-- The bank loop of `SfxArchive::import_sounds`: for each `(bank,
original_index)` pair, rewrite the lookup entry (`offset := running offset`,
`length := new payload length as u32`), rewrite the bank's entries through
`processSoundEntries` when a replacement folder exists, emit
`header || payload`, and advance the running offset by `bank.len() as u32`.
`none` models the error paths (missing lookup index, entry-walk panic). -/
def importSounds (folders : Nat → Option (List Nat)) (data : Nat → Nat → List Nat) :
    List LookUpEntry → Nat → List (Bank × Nat) → Option (List LookUpEntry × List Nat)
  | lookup, _, [] => some (lookup, [])
  | lookup, offset, (bank, index) :: rest =>
      match lookup.get? index with
      | none => none
      | some entry =>
          match folders bank.index with
          | none =>
              (importSounds folders data
                  (lookup.set index
                    { entry with offset := offset,
                                 length := bank.bytes.length % 4294967296 })
                  ((offset + bank.len) % 4294967296) rest).map
                fun p => (p.1, serializeBank bank ++ p.2)
          | some files =>
              match processSoundEntries files (data bank.index) bank.bytes 0 0
                  bank.header.soundEntries with
              | none => none
              | some (es, buf) =>
                  (importSounds folders data
                      (lookup.set index
                        { entry with offset := offset,
                                     length := buf.length % 4294967296 })
                      ((offset + (Bank.len { bank with
                          header := { bank.header with soundEntries := es },
                          bytes := buf })) % 4294967296) rest).map
                    fun p =>
                      (p.1, serializeBank { bank with
                          header := { bank.header with soundEntries := es },
                          bytes := buf } ++ p.2)

/-- Rewritten lookup entries chain back-to-back from `off` along the listed
table positions: each entry sits at the running offset and advances it by
`length + BankHeader::SIZE`. -/
def chainFrom (lkp : List LookUpEntry) : Nat → List Nat → Bool
  | _, [] => true
  | off, i :: rest =>
      match lkp.get? i with
      | none => false
      | some e => (e.offset == off) && chainFrom lkp (off + e.length + BankHeaderSIZE) rest

/-- Sound entries chain from `off`: each entry's offset is the running sum
of the previous sizes, and the total equals `payloadLen`. -/
def sChainFrom : Nat → Nat → List SoundEntry → Bool
  | off, payloadLen, [] => off == payloadLen
  | off, payloadLen, e :: rest =>
      (e.offset == off) && sChainFrom (off + e.size) payloadLen rest

theorem natLE_length (w v : Nat) : (natLE w v).length = w := by
  induction w generalizing v with
  | zero => rfl
  | succ n ih => simp [natLE, ih]

theorem writeSoundEntry_length (e : SoundEntry) : (writeSoundEntry e).length = 12 := by
  simp [writeSoundEntry, natLE_length]

theorem writeBankHeader_length (h : BankHeader)
    (hle : h.soundEntries.length ≤ 400) :
    (writeBankHeader h).length = BankHeaderSIZE := by
  have hsum : ∀ l : List SoundEntry,
      ((l.map writeSoundEntry).flatten).length = 12 * l.length := by
    intro l
    induction l with
    | nil => rfl
    | cons a t ih =>
      simp only [List.map_cons, List.flatten_cons, List.length_append, ih,
        writeSoundEntry_length, List.length_cons]
      ring
  simp only [writeBankHeader, List.length_append, natLE_length,
    List.length_replicate, hsum]
  unfold BankHeaderSIZE
  omega

theorem processSoundEntries_length (files : List Nat) (data : Nat → List Nat)
    (bytes : List Nat) :
    ∀ (entries : List SoundEntry) (idx soffset : Nat) es buf,
      processSoundEntries files data bytes idx soffset entries = some (es, buf) →
      es.length = entries.length := by
  intro entries
  induction entries with
  | nil =>
    intro idx soffset es buf h
    simp only [processSoundEntries, Option.some.injEq, Prod.mk.injEq] at h
    obtain ⟨h1, -⟩ := h
    rw [← h1]
  | cons e rest ih =>
    intro idx soffset es buf h
    simp only [processSoundEntries] at h
    by_cases hc : files.contains idx
    · rw [if_pos hc] at h
      rw [Option.map_eq_some'] at h
      obtain ⟨⟨es', buf'⟩, hrec, heq⟩ := h
      rw [Prod.mk.injEq] at heq
      obtain ⟨h1, -⟩ := heq
      rw [← h1, List.length_cons, List.length_cons]
      show es'.length + 1 = rest.length + 1
      rw [ih _ _ _ _ hrec]
    · rw [if_neg hc] at h
      split at h
      · rw [Option.map_eq_some'] at h
        obtain ⟨⟨es', buf'⟩, hrec, heq⟩ := h
        rw [Prod.mk.injEq] at heq
        obtain ⟨h1, -⟩ := heq
        rw [← h1, List.length_cons, List.length_cons]
        show es'.length + 1 = rest.length + 1
        rw [ih _ _ _ _ hrec]
      · exact Option.noConfusion h

/-- Successful entry walks produce offsets that chain from the starting
`sound_offset` and sum to the emitted payload length. -/
theorem processSoundEntries_chain (files : List Nat) (data : Nat → List Nat)
    (bytes : List Nat) :
    ∀ (entries : List SoundEntry) (idx soffset : Nat) es buf,
      processSoundEntries files data bytes idx soffset entries = some (es, buf) →
      soffset + buf.length < 4294967296 →
      sChainFrom soffset (soffset + buf.length) es = true := by
  intro entries
  induction entries with
  | nil =>
    intro idx soffset es buf h hlt
    simp only [processSoundEntries, Option.some.injEq, Prod.mk.injEq] at h
    obtain ⟨h1, h2⟩ := h
    rw [← h1, ← h2]
    simp [sChainFrom]
  | cons e rest ih =>
    intro idx soffset es buf h hlt
    simp only [processSoundEntries] at h
    by_cases hc : files.contains idx
    · rw [if_pos hc] at h
      rw [Option.map_eq_some'] at h
      obtain ⟨⟨es', buf'⟩, hrec, heq⟩ := h
      rw [Prod.mk.injEq] at heq
      dsimp only at heq
      obtain ⟨h1, h2⟩ := heq
      subst h1
      rw [← h2] at hlt ⊢
      rw [List.length_append] at hlt ⊢
      have hmod : (soffset + (data idx).length) % 4294967296
          = soffset + (data idx).length := Nat.mod_eq_of_lt (by omega)
      rw [hmod] at hrec
      have hrest := ih _ _ _ _ hrec (by omega)
      simp only [sChainFrom, Bool.and_eq_true, beq_iff_eq]
      refine ⟨trivial, ?_⟩
      rw [← Nat.add_assoc]
      exact hrest
    · rw [if_neg hc] at h
      split at h
      next hin =>
        rw [Option.map_eq_some'] at h
        obtain ⟨⟨es', buf'⟩, hrec, heq⟩ := h
        rw [Prod.mk.injEq] at heq
        dsimp only at heq
        obtain ⟨h1, h2⟩ := heq
        subst h1
        rw [← h2] at hlt ⊢
        rw [List.length_append, List.length_take, List.length_drop] at hlt ⊢
        have htk : min e.size (bytes.length - soffset) = e.size := by omega
        rw [htk] at hlt ⊢
        have hmod : (soffset + e.size) % 4294967296 = soffset + e.size :=
          Nat.mod_eq_of_lt (by omega)
        rw [hmod] at hrec
        have hrest := ih _ _ _ _ hrec (by omega)
        simp only [sChainFrom, Bool.and_eq_true, beq_iff_eq]
        refine ⟨trivial, ?_⟩
        rw [← Nat.add_assoc]
        exact hrest
      next => exact Option.noConfusion h

/-- Lookup positions not listed among the iterated banks are untouched by
`import_sounds`. -/
theorem importSounds_untouched (folders : Nat → Option (List Nat))
    (data : Nat → Nat → List Nat) :
    ∀ (banks : List (Bank × Nat)) (lookup : List LookUpEntry) (off : Nat)
      lkpNew out (j : Nat),
      importSounds folders data lookup off banks = some (lkpNew, out) →
      j ∉ banks.map Prod.snd →
      lkpNew.get? j = lookup.get? j := by
  intro banks
  induction banks with
  | nil =>
    intro lookup off lkpNew out j h _
    simp only [importSounds, Option.some.injEq, Prod.mk.injEq] at h
    obtain ⟨h1, -⟩ := h
    rw [← h1]
  | cons p rest ih =>
    obtain ⟨bank, index⟩ := p
    intro lookup off lkpNew out j h hj
    simp only [importSounds] at h
    simp only [List.map_cons, List.mem_cons, not_or] at hj
    obtain ⟨hj1, hj2⟩ := hj
    split at h
    · exact Option.noConfusion h
    next entry hidx =>
      split at h
      next hf =>
        rw [Option.map_eq_some'] at h
        obtain ⟨⟨lkp', out'⟩, hrec, heq⟩ := h
        rw [Prod.mk.injEq] at heq
        dsimp only at heq
        obtain ⟨h1, -⟩ := heq
        subst h1
        rw [ih _ _ _ _ _ hrec hj2, List.get?_eq_getElem?, List.get?_eq_getElem?,
          List.getElem?_set_ne (Ne.symm hj1)]
      next files hf =>
        split at h
        · exact Option.noConfusion h
        next es buf hp =>
          rw [Option.map_eq_some'] at h
          obtain ⟨⟨lkp', out'⟩, hrec, heq⟩ := h
          rw [Prod.mk.injEq] at heq
          dsimp only at heq
          obtain ⟨h1, -⟩ := heq
          subst h1
          rw [ih _ _ _ _ _ hrec hj2, List.get?_eq_getElem?, List.get?_eq_getElem?,
            List.getElem?_set_ne (Ne.symm hj1)]

/-- After a successful `import_sounds`, the rewritten lookup entries chain
back-to-back from the initial running offset. -/
theorem importSounds_chain (folders : Nat → Option (List Nat))
    (data : Nat → Nat → List Nat) :
    ∀ (banks : List (Bank × Nat)) (lookup : List LookUpEntry) (off : Nat)
      lkpNew out,
      importSounds folders data lookup off banks = some (lkpNew, out) →
      (banks.map Prod.snd).Nodup →
      (∀ p ∈ banks, p.1.header.soundEntries.length ≤ 400) →
      off + out.length < 4294967296 →
      chainFrom lkpNew off (banks.map Prod.snd) = true := by
  intro banks
  induction banks with
  | nil =>
    intros
    simp [chainFrom]
  | cons p rest ih =>
    obtain ⟨bank, index⟩ := p
    intro lookup off lkpNew out h hnodup hle hlt
    simp only [importSounds] at h
    simp only [List.map_cons, List.nodup_cons] at hnodup
    obtain ⟨hnotin, hnodup'⟩ := hnodup
    have hle' : ∀ p ∈ rest, p.1.header.soundEntries.length ≤ 400 :=
      fun q hq => hle q (List.mem_cons_of_mem _ hq)
    split at h
    · exact Option.noConfusion h
    next entry hidx =>
      have hinlen : index < lookup.length := (List.get?_eq_some.mp hidx).1
      split at h
      next hf =>
        rw [Option.map_eq_some'] at h
        obtain ⟨⟨lkp', out'⟩, hrec, heq⟩ := h
        rw [Prod.mk.injEq] at heq
        dsimp only at heq
        obtain ⟨h1, h2⟩ := heq
        subst h1
        rw [← h2, List.length_append, serializeBank, List.length_append,
          writeBankHeader_length _ (hle (bank, index) (List.mem_cons_self _ _))] at hlt
        have hmodL : bank.bytes.length % 4294967296 = bank.bytes.length :=
          Nat.mod_eq_of_lt (by omega)
        have hmodO : (off + bank.len) % 4294967296
            = off + bank.bytes.length + BankHeaderSIZE := by
          unfold Bank.len
          rw [Nat.mod_eq_of_lt (by omega)]
          omega
        have hget : lkp'.get? index = some
            { entry with offset := off, length := bank.bytes.length % 4294967296 } := by
          rw [importSounds_untouched folders data rest _ _ _ _ index hrec hnotin,
            List.get?_eq_getElem?, List.getElem?_set_eq_of_lt _ hinlen]
        simp only [List.map_cons, chainFrom, hget, hmodL, Bool.and_eq_true,
          beq_iff_eq]
        refine ⟨trivial, ?_⟩
        rw [hmodO] at hrec
        exact ih _ _ _ _ hrec hnodup' hle' (by omega)
      next files hf =>
        split at h
        · exact Option.noConfusion h
        next es buf hp =>
          rw [Option.map_eq_some'] at h
          obtain ⟨⟨lkp', out'⟩, hrec, heq⟩ := h
          rw [Prod.mk.injEq] at heq
          dsimp only at heq
          obtain ⟨h1, h2⟩ := heq
          subst h1
          have heslen : es.length ≤ 400 := by
            rw [processSoundEntries_length _ _ _ _ _ _ _ _ hp]
            exact hle (bank, index) (List.mem_cons_self _ _)
          rw [← h2, List.length_append, serializeBank, List.length_append,
            writeBankHeader_length _ heslen] at hlt
          dsimp only at hlt
          have hmodL : buf.length % 4294967296 = buf.length :=
            Nat.mod_eq_of_lt (by omega)
          have hmodO : (off + Bank.len { bank with
              header := { bank.header with soundEntries := es }, bytes := buf })
              % 4294967296 = off + buf.length + BankHeaderSIZE := by
            unfold Bank.len
            dsimp only
            rw [Nat.mod_eq_of_lt (by omega)]
            omega
          have hget : lkp'.get? index = some
              { entry with offset := off, length := buf.length % 4294967296 } := by
            rw [importSounds_untouched folders data rest _ _ _ _ index hrec hnotin,
              List.get?_eq_getElem?, List.getElem?_set_eq_of_lt _ hinlen]
          simp only [List.map_cons, chainFrom, hget, hmodL, Bool.and_eq_true,
            beq_iff_eq]
          refine ⟨trivial, ?_⟩
          rw [hmodO] at hrec
          exact ih _ _ _ _ hrec hnodup' hle' (by omega)

/-- Every bank with a replacement folder was walked successfully, and its
new payload fits inside the emitted archive. -/
theorem importSounds_processed (folders : Nat → Option (List Nat))
    (data : Nat → Nat → List Nat) :
    ∀ (banks : List (Bank × Nat)) (lookup : List LookUpEntry) (off : Nat)
      lkpNew out,
      importSounds folders data lookup off banks = some (lkpNew, out) →
      ∀ bank index, (bank, index) ∈ banks →
      ∀ files, folders bank.index = some files →
      ∃ es buf,
        processSoundEntries files (data bank.index) bank.bytes 0 0
          bank.header.soundEntries = some (es, buf) ∧
        buf.length ≤ out.length := by
  intro banks
  induction banks with
  | nil =>
    intro lookup off lkpNew out _ bank index hmem
    exact absurd hmem (List.not_mem_nil _)
  | cons p rest ih =>
    obtain ⟨bank0, index0⟩ := p
    intro lookup off lkpNew out h bank index hmem files hf
    simp only [importSounds] at h
    split at h
    · exact Option.noConfusion h
    next entry hidx =>
      rcases List.mem_cons.mp hmem with heq0 | hmem'
      · rw [Prod.mk.injEq] at heq0
        obtain ⟨hb, -⟩ := heq0
        subst hb
        split at h
        next hf0 =>
          rw [hf0] at hf
          exact Option.noConfusion hf
        next files0 hf0 =>
          rw [hf0] at hf
          injection hf with hfiles
          subst hfiles
          split at h
          · exact Option.noConfusion h
          next es buf hp =>
            rw [Option.map_eq_some'] at h
            obtain ⟨⟨lkp', out'⟩, hrec, heqq⟩ := h
            rw [Prod.mk.injEq] at heqq
            dsimp only at heqq
            obtain ⟨-, h2⟩ := heqq
            refine ⟨es, buf, hp, ?_⟩
            rw [← h2, List.length_append, serializeBank, List.length_append]
            dsimp only
            omega
      · split at h
        next hf0 =>
          rw [Option.map_eq_some'] at h
          obtain ⟨⟨lkp', out'⟩, hrec, heqq⟩ := h
          rw [Prod.mk.injEq] at heqq
          dsimp only at heqq
          obtain ⟨-, h2⟩ := heqq
          obtain ⟨es, buf, hp, hlen⟩ := ih _ _ _ _ hrec bank index hmem' files hf
          refine ⟨es, buf, hp, ?_⟩
          rw [← h2, List.length_append]
          omega
        next files0 hf0 =>
          split at h
          · exact Option.noConfusion h
          next es0 buf0 hp0 =>
            rw [Option.map_eq_some'] at h
            obtain ⟨⟨lkp', out'⟩, hrec, heqq⟩ := h
            rw [Prod.mk.injEq] at heqq
            dsimp only at heqq
            obtain ⟨-, h2⟩ := heqq
            obtain ⟨es, buf, hp, hlen⟩ := ih _ _ _ _ hrec bank index hmem' files hf
            refine ⟨es, buf, hp, ?_⟩
            rw [← h2, List.length_append]
            omega

/-- **C3**: after a successful sound-import (running offset starting at 0),
the rewritten lookup entries for the consecutive iterated banks satisfy
`offset[k] + length[k] + BankHeader::SIZE = offset[k+1]` (stated as
`chainFrom` from 0), and within each rewritten bank the sound entries chain:
`entry[k+1].offset = entry[k].offset + entry[k].size`, with the last offset
plus size equal to the new payload length (stated as `sChainFrom 0`).
Hypotheses: distinct original lookup indices, at most 400 entries per bank,
and an emitted archive that fits in `u32`. -/
theorem C3_sound_import_offset_chains (folders : Nat → Option (List Nat))
    (data : Nat → Nat → List Nat) (banks : List (Bank × Nat))
    (lookup lkpNew : List LookUpEntry) (out : List Nat)
    (hrun : importSounds folders data lookup 0 banks = some (lkpNew, out))
    (hnodup : (banks.map Prod.snd).Nodup)
    (hle : ∀ p ∈ banks, p.1.header.soundEntries.length ≤ 400)
    (hsize : out.length < 4294967296) :
    chainFrom lkpNew 0 (banks.map Prod.snd) = true ∧
    ∀ p ∈ banks, ∀ files, folders p.1.index = some files →
      ∃ es buf,
        processSoundEntries files (data p.1.index) p.1.bytes 0 0
          p.1.header.soundEntries = some (es, buf) ∧
        sChainFrom 0 buf.length es = true := by
  constructor
  · exact importSounds_chain folders data banks lookup 0 lkpNew out hrun hnodup hle
      (by omega)
  · intro p hmem files hf
    obtain ⟨bank, index⟩ := p
    obtain ⟨es, buf, hp, hblen⟩ :=
      importSounds_processed folders data banks lookup 0 lkpNew out hrun bank index
        hmem files hf
    refine ⟨es, buf, hp, ?_⟩
    have hchain := processSoundEntries_chain files (data bank.index) bank.bytes
      bank.header.soundEntries 0 0 es buf hp (by omega)
    simpa using hchain

/-- **C3** witness: one bank (two sounds, payload `[10,11,12,13]`) with
sound 0 replaced by a 1-byte file; the theorem applied at this concrete
instance. -/
theorem C3_sound_import_offset_chains_witness :
    chainFrom [⟨0, [0, 0, 0], 0, 3⟩] 0
        ([((⟨0, ⟨0, [⟨0, 0, 0, 0, 2⟩, ⟨2, 0, 0, 0, 2⟩]⟩, [10, 11, 12, 13]⟩ : Bank),
           0)].map Prod.snd) = true ∧
    ∀ p ∈ [((⟨0, ⟨0, [⟨0, 0, 0, 0, 2⟩, ⟨2, 0, 0, 0, 2⟩]⟩, [10, 11, 12, 13]⟩ : Bank),
            0)],
      ∀ files,
        (fun i => if i = 0 then some [0] else none : Nat → Option (List Nat))
            p.1.index = some files →
        ∃ es buf,
          processSoundEntries files ((fun _ _ => [7]) p.1.index) p.1.bytes 0 0
            p.1.header.soundEntries = some (es, buf) ∧
          sChainFrom 0 buf.length es = true :=
  C3_sound_import_offset_chains (fun i => if i = 0 then some [0] else none)
    (fun _ _ => [7])
    [(⟨0, ⟨0, [⟨0, 0, 0, 0, 2⟩, ⟨2, 0, 0, 0, 2⟩]⟩, [10, 11, 12, 13]⟩, 0)]
    [⟨0, [0, 0, 0], 0, 4⟩] [⟨0, [0, 0, 0], 0, 3⟩]
    (serializeBank ⟨0, ⟨0, [⟨0, 0, 0, 0, 1⟩, ⟨1, 0, 0, 0, 2⟩]⟩, [7, 11, 12]⟩ ++ [])
    rfl (by decide) (by decide)
    (by rw [List.length_append, serializeBank, List.length_append,
          writeBankHeader_length _ (by decide)]
        decide)

/-! ## Reading banks from an archive (`BankHeader::read_args`,
`BanksIter::next`) and `SfxArchive::import_banks` -/

/-- Read exactly `n` bytes: `(taken, rest)`, or `none` when the stream is
too short (binrw I/O error). -/
def splitAtExact (n : Nat) (l : List Nat) : Option (List Nat × List Nat) :=
  if n ≤ l.length then some (l.take n, l.drop n) else none

/-- Little-endian value of a byte string. -/
def leVal : List Nat → Nat
  | [] => 0
  | b :: rest => b + 256 * leVal rest

/-- Parse one 12-byte `SoundEntry` record (`size` is not on disk). -/
def parseSoundEntry (b : List Nat) : SoundEntry :=
  { offset := leVal (b.take 4), loopOffset := leVal ((b.drop 4).take 4),
    sampleRate := leVal ((b.drop 8).take 2), headroom := leVal ((b.drop 10).take 2),
    size := 0 }

/-- Parse `n` consecutive 12-byte `SoundEntry` records. -/
def parseSoundEntries : Nat → List Nat → List SoundEntry
  | 0, _ => []
  | n + 1, b => parseSoundEntry (b.take 12) :: parseSoundEntries n (b.drop 12)

/-- `BankHeader::read_args(r, buf_len)`: `num_sounds` (`≤ 400` asserted),
`padding`, `num_sounds` entries inside the fixed `400 * 12` byte area
(`pad_size_to` advances past the slack), sizes derived by
`generate_sizes`. -/
def parseBankHeader (payloadLen : Nat) (bytes : List Nat) :
    Option (BankHeader × List Nat) :=
  match splitAtExact 2 bytes with
  | none => none
  | some (nsB, r1) =>
    match splitAtExact 2 r1 with
    | none => none
    | some (padB, r2) =>
      if leVal nsB ≤ 400 then
        match splitAtExact (400 * 12) r2 with
        | none => none
        | some (area, r3) =>
          match generateSizes (parseSoundEntries (leVal nsB) area) payloadLen with
          | none => none
          | some sized => some ({ padding := leVal padB, soundEntries := sized }, r3)
      else none

/-- `BanksIter`, run to exhaustion over the `(dense_index, entry)` list:
each step parses a header with the entry's `length` as `buf_len` and then
reads exactly `length` payload bytes. -/
def readBanks : List (Nat × LookUpEntry) → List Nat → Option (List Bank × List Nat)
  | [], bytes => some ([], bytes)
  | (di, entry) :: rest, bytes =>
      match parseBankHeader entry.length bytes with
      | none => none
      | some (header, r1) =>
          match splitAtExact entry.length r1 with
          | none => none
          | some (payload, r2) =>
              (readBanks rest r2).map fun p => (⟨di, header, payload⟩ :: p.1, p.2)

/-- `SfxArchive::import_banks`: for each `(bank, original_index)` pair,
rewrite the lookup entry at `original_index` (`offset := running offset`;
`length := file length - BankHeader::SIZE` for an imported `.bnk`, or the
original payload length otherwise), emit either the replacement file bytes
or `header || payload`, and advance the running offset by the bytes
written (`as u32`). -/
def importBanks (files : Nat → Option (List Nat)) :
    List LookUpEntry → Nat → List (Bank × Nat) → Option (List LookUpEntry × List Nat)
  | lookup, _, [] => some (lookup, [])
  | lookup, offset, (bank, index) :: rest =>
      match lookup.get? index with
      | none => none
      | some entry =>
          match files bank.index with
          | some buf =>
              (importBanks files
                  (lookup.set index
                    { entry with offset := offset,
                                 length := (buf.length - BankHeaderSIZE) % 4294967296 })
                  ((offset + buf.length) % 4294967296) rest).map
                fun p => (p.1, buf ++ p.2)
          | none =>
              (importBanks files
                  (lookup.set index
                    { entry with offset := offset,
                                 length := bank.bytes.length % 4294967296 })
                  ((offset + bank.len) % 4294967296) rest).map
                fun p => (p.1, serializeBank bank ++ p.2)

theorem natLE_leVal (w : Nat) (b : List Nat) (hw : b.length = w)
    (hb : ∀ x ∈ b, x < 256) : natLE w (leVal b) = b := by
  induction b generalizing w with
  | nil =>
    subst hw
    rfl
  | cons x rest ih =>
    subst hw
    simp only [List.length_cons, natLE, leVal]
    have hx : x < 256 := hb x (List.mem_cons_self _ _)
    rw [List.cons.injEq]
    refine ⟨by omega, ?_⟩
    have hdiv : (x + 256 * leVal rest) / 256 = leVal rest := by omega
    rw [hdiv]
    exact ih rest.length rfl (fun y hy => hb y (List.mem_cons_of_mem _ hy))

/-- Re-serializing a parsed 12-byte record reproduces it. -/
theorem writeSoundEntry_parseSoundEntry (b : List Nat) (h12 : b.length = 12)
    (hb : ∀ x ∈ b, x < 256) : writeSoundEntry (parseSoundEntry b) = b := by
  rcases b with _ | ⟨b0, b⟩
  · simp at h12
  rcases b with _ | ⟨b1, b⟩
  · simp at h12
  rcases b with _ | ⟨b2, b⟩
  · simp at h12
  rcases b with _ | ⟨b3, b⟩
  · simp at h12
  rcases b with _ | ⟨b4, b⟩
  · simp at h12
  rcases b with _ | ⟨b5, b⟩
  · simp at h12
  rcases b with _ | ⟨b6, b⟩
  · simp at h12
  rcases b with _ | ⟨b7, b⟩
  · simp at h12
  rcases b with _ | ⟨b8, b⟩
  · simp at h12
  rcases b with _ | ⟨b9, b⟩
  · simp at h12
  rcases b with _ | ⟨b10, b⟩
  · simp at h12
  rcases b with _ | ⟨b11, b⟩
  · simp at h12
  rcases b with _ | ⟨bx, b⟩
  swap
  · simp at h12
  have h0 : b0 < 256 := hb b0 (by simp)
  have h1 : b1 < 256 := hb b1 (by simp)
  have h2 : b2 < 256 := hb b2 (by simp)
  have h3 : b3 < 256 := hb b3 (by simp)
  have h4 : b4 < 256 := hb b4 (by simp)
  have h5 : b5 < 256 := hb b5 (by simp)
  have h6 : b6 < 256 := hb b6 (by simp)
  have h7 : b7 < 256 := hb b7 (by simp)
  have h8 : b8 < 256 := hb b8 (by simp)
  have h9 : b9 < 256 := hb b9 (by simp)
  have h10 : b10 < 256 := hb b10 (by simp)
  have h11 : b11 < 256 := hb b11 (by simp)
  simp only [parseSoundEntry, writeSoundEntry, natLE, leVal, List.take,
    List.drop, List.cons_append, List.nil_append, List.cons.injEq, and_true]
  norm_num
  omega

/-- `parseSoundEntries` always yields `n` records. -/
theorem parseSoundEntries_length (n : Nat) (area : List Nat) :
    (parseSoundEntries n area).length = n := by
  induction n generalizing area with
  | zero => rfl
  | succ m ih => simp [parseSoundEntries, ih]

/-- Re-serializing the parsed records reproduces the consumed prefix. -/
theorem parseSoundEntries_flatten (n : Nat) (area : List Nat)
    (hlen : 12 * n ≤ area.length) (hb : ∀ x ∈ area, x < 256) :
    ((parseSoundEntries n area).map writeSoundEntry).flatten = area.take (12 * n) := by
  induction n generalizing area with
  | zero => simp [parseSoundEntries]
  | succ m ih =>
    simp only [parseSoundEntries, List.map_cons, List.flatten_cons]
    have ht12 : (area.take 12).length = 12 := by
      rw [List.length_take]
      omega
    rw [writeSoundEntry_parseSoundEntry _ ht12
        (fun x hx => hb x (List.mem_of_mem_take hx)),
      ih (area.drop 12) (by rw [List.length_drop]; omega)
        (fun x hx => hb x (List.mem_of_mem_drop hx))]
    rw [show 12 * (m + 1) = 12 + 12 * m from by ring, List.take_add]

/-- `generate_sizes` only fills the derived `size`; the on-disk bytes of
every record are unchanged, and the count is preserved. -/
theorem generateSizes_map_write (es : List SoundEntry) (len : Nat)
    (sized : List SoundEntry) (h : generateSizes es len = some sized) :
    sized.map writeSoundEntry = es.map writeSoundEntry ∧
      sized.length = es.length := by
  induction es generalizing sized with
  | nil =>
    simp only [generateSizes, Option.some.injEq] at h
    subst h
    exact ⟨rfl, rfl⟩
  | cons e rest ih =>
    cases rest with
    | nil =>
      simp only [generateSizes] at h
      split at h
      · rw [Option.some.injEq] at h
        subst h
        exact ⟨rfl, rfl⟩
      · exact Option.noConfusion h
    | cons e2 rest' =>
      simp only [generateSizes] at h
      split at h
      · rw [Option.map_eq_some'] at h
        obtain ⟨sized', hrec, heq⟩ := h
        subst heq
        obtain ⟨hmap, hlen⟩ := ih sized' hrec
        constructor
        · simp only [List.map_cons] at hmap ⊢
          rw [hmap]
          rfl
        · simp only [List.length_cons, hlen]
      · exact Option.noConfusion h

theorem splitAtExact_eq (n : Nat) (l a b : List Nat)
    (h : splitAtExact n l = some (a, b)) :
    a = l.take n ∧ b = l.drop n ∧ n ≤ l.length := by
  unfold splitAtExact at h
  split at h
  · rw [Option.some.injEq, Prod.mk.injEq] at h
    next hle => exact ⟨h.1.symm, h.2.symm, hle⟩
  · exact Option.noConfusion h

/-- Re-serializing a parsed bank header reproduces the 4,804 consumed bytes,
provided the slack area beyond `num_sounds` entries is zero ("unused slots
zeroed"). -/
theorem parseBankHeader_roundtrip (plen : Nat) (bytes : List Nat)
    (h : BankHeader) (r : List Nat)
    (hp : parseBankHeader plen bytes = some (h, r))
    (hb : ∀ x ∈ bytes, x < 256)
    (hslack : ((bytes.take 4804).drop (4 + 12 * leVal (bytes.take 2))).all
        (· == 0) = true) :
    writeBankHeader h = bytes.take 4804 ∧ r = bytes.drop 4804 ∧
      h.soundEntries.length ≤ 400 ∧ 4804 ≤ bytes.length := by
  simp only [parseBankHeader] at hp
  split at hp
  · exact Option.noConfusion hp
  next nsB r1 hsplit1 =>
    split at hp
    · exact Option.noConfusion hp
    next padB r2 hsplit2 =>
      split at hp
      next h400 =>
        split at hp
        · exact Option.noConfusion hp
        next area r3 hsplit3 =>
          split at hp
          · exact Option.noConfusion hp
          next sized hsizes =>
            rw [Option.some.injEq, Prod.mk.injEq] at hp
            obtain ⟨hh, hr⟩ := hp
            obtain ⟨hnsB, hr1, hlen1⟩ := splitAtExact_eq _ _ _ _ hsplit1
            obtain ⟨hpadB, hr2, hlen2⟩ := splitAtExact_eq _ _ _ _ hsplit2
            obtain ⟨harea, hr3, hlen3⟩ := splitAtExact_eq _ _ _ _ hsplit3
            subst hnsB hr1 hpadB hr2 harea hr3
            rw [List.length_drop] at hlen2
            rw [List.length_drop, List.length_drop] at hlen3
            have hblen : 4804 ≤ bytes.length := by omega
            -- normalized shapes
            have hdrop4 : (bytes.drop 2).drop 2 = bytes.drop 4 := by
              rw [List.drop_drop]
            have hdrop4804 : ((bytes.drop 2).drop 2).drop (400 * 12)
                = bytes.drop 4804 := by
              rw [List.drop_drop, List.drop_drop]
            rw [hdrop4] at hsizes
            set num := leVal (bytes.take 2) with hnum
            have hsizedmap := generateSizes_map_write _ _ _ hsizes
            have hsizedlen : sized.length = num := by
              rw [hsizedmap.2, parseSoundEntries_length]
            have hareaLen : ((bytes.drop 4).take (400 * 12)).length = 400 * 12 := by
              rw [List.length_take, List.length_drop]
              omega
            -- the four serialized pieces
            have piece1 : natLE 2 num = bytes.take 2 := by
              rw [hnum]
              exact natLE_leVal 2 _ (by rw [List.length_take]; omega)
                (fun x hx => hb x (List.mem_of_mem_take hx))
            have piece2 : natLE 2 (leVal ((bytes.drop 2).take 2))
                = (bytes.drop 2).take 2 :=
              natLE_leVal 2 _ (by rw [List.length_take, List.length_drop]; omega)
                (fun x hx => hb x (List.mem_of_mem_drop (List.mem_of_mem_take hx)))
            have piece3 : (sized.map writeSoundEntry).flatten
                = ((bytes.drop 4).take (400 * 12)).take (12 * num) := by
              rw [hsizedmap.1]
              exact parseSoundEntries_flatten num _ (by rw [hareaLen]; omega)
                (fun x hx => hb x (List.mem_of_mem_drop (List.mem_of_mem_take hx)))
            have piece4 : List.replicate (400 * 12 - 12 * sized.length) 0
                = ((bytes.drop 4).take (400 * 12)).drop (12 * num) := by
              rw [hsizedlen]
              -- the slack hypothesis speaks about the same slice
              have htk : bytes.take 4804 = bytes.take 4
                  ++ (bytes.drop 4).take (400 * 12) := by
                rw [show (4804 : Nat) = 4 + 400 * 12 from rfl, List.take_add]
              have hslice : (bytes.take 4804).drop (4 + 12 * num)
                  = ((bytes.drop 4).take (400 * 12)).drop (12 * num) := by
                rw [htk, show (4 : Nat) + 12 * num
                    = (bytes.take 4).length + 12 * num from by
                      rw [List.length_take]; omega,
                  List.drop_append]
              rw [hslice] at hslack
              symm
              rw [List.eq_replicate_iff]
              refine ⟨?_, fun b hbmem => ?_⟩
              · rw [List.length_drop, hareaLen]
              · have := List.all_eq_true.mp hslack b hbmem
                simpa using this
            -- assemble
            refine ⟨?_, ?_, ?_, hblen⟩
            · rw [← hh]
              show natLE 2 sized.length ++ natLE 2 (leVal ((bytes.drop 2).take 2))
                  ++ (sized.map writeSoundEntry).flatten
                  ++ List.replicate (400 * 12 - 12 * sized.length) 0
                = bytes.take 4804
              rw [piece2, piece3, piece4, hsizedlen, piece1]
              rw [show (4804 : Nat) = 2 + (2 + 400 * 12) from rfl, List.take_add,
                show (2 : Nat) + 400 * 12 = 2 + 400 * 12 from rfl, List.take_add,
                List.drop_drop, show (2 : Nat) + 2 = 4 from rfl]
              rw [← List.take_append_drop (12 * num) ((bytes.drop 4).take (400 * 12))]
              simp [List.append_assoc]
            · rw [← hr, hdrop4804]
            · rw [← hh]
              show sized.length ≤ 400
              omega
      · exact Option.noConfusion hp

/-- Archive well-formedness along the entry list: each bank's header slack
is zero (walking at `BankHeader::SIZE + length` strides). -/
def slackOkAll : List (Nat × LookUpEntry) → List Nat → Bool
  | [], _ => true
  | (_, e) :: rest, bytes =>
      ((bytes.take 4804).drop (4 + 12 * leVal (bytes.take 2))).all (· == 0)
        && slackOkAll rest (bytes.drop (4804 + e.length))

/-- Reading and re-serializing the banks reproduces the archive, each bank's
payload has its entry's length, and each header fits 400 entries. -/
theorem readBanks_serialize :
    ∀ (pairs : List (Nat × LookUpEntry)) (archive : List Nat) banks leftover,
      readBanks pairs archive = some (banks, leftover) →
      (∀ x ∈ archive, x < 256) →
      slackOkAll pairs archive = true →
      (banks.map serializeBank).flatten ++ leftover = archive ∧
      List.Forall₂ (fun (b : Bank) (p : Nat × LookUpEntry) =>
        b.bytes.length = p.2.length ∧ b.header.soundEntries.length ≤ 400)
        banks pairs := by
  intro pairs
  induction pairs with
  | nil =>
    intro archive banks leftover h _ _
    simp only [readBanks, Option.some.injEq, Prod.mk.injEq] at h
    obtain ⟨h1, h2⟩ := h
    subst h1 h2
    exact ⟨rfl, List.Forall₂.nil⟩
  | cons p rest ih =>
    obtain ⟨di, entry⟩ := p
    intro archive banks leftover h hb hslack
    simp only [readBanks] at h
    simp only [slackOkAll, Bool.and_eq_true] at hslack
    obtain ⟨hslack1, hslack2⟩ := hslack
    split at h
    · exact Option.noConfusion h
    next header r1 hph =>
      split at h
      · exact Option.noConfusion h
      next payload r2 hsp =>
        rw [Option.map_eq_some'] at h
        obtain ⟨⟨banks', leftover'⟩, hrec, heq⟩ := h
        rw [Prod.mk.injEq] at heq
        dsimp only at heq
        obtain ⟨h1, h2⟩ := heq
        subst h1 h2
        obtain ⟨hwrite, hr1, h400, hblen⟩ :=
          parseBankHeader_roundtrip _ _ _ _ hph hb hslack1
        obtain ⟨hpay, hr2, hlen2⟩ := splitAtExact_eq _ _ _ _ hsp
        subst hr1
        rw [List.length_drop] at hlen2
        have hr2' : r2 = archive.drop (4804 + entry.length) := by
          rw [hr2, List.drop_drop]
        have hpaylen : payload.length = entry.length := by
          rw [hpay, List.length_take, List.length_drop]
          omega
        rw [hr2'] at hrec
        obtain ⟨hflat, hf2⟩ := ih _ _ _ hrec
          (fun x hx => hb x (List.mem_of_mem_drop hx)) hslack2
        constructor
        · simp only [List.map_cons, List.flatten_cons, List.append_assoc]
          rw [hflat]
          show serializeBank ⟨di, header, payload⟩
              ++ archive.drop (4804 + entry.length) = archive
          rw [serializeBank]
          dsimp only
          rw [hwrite, hpay]
          rw [← List.take_add, List.take_append_drop]
        · exact List.Forall₂.cons ⟨hpaylen, h400⟩ hf2

/-- Entries are back-to-back starting exactly at `off` (the well-formed
placement of banks in the original archive). -/
def offChain : Nat → List LookUpEntry → Bool
  | _, [] => true
  | off, e :: rest => (e.offset == off) && offChain (off + e.length + BankHeaderSIZE) rest

theorem LookUpEntry_eta (e : LookUpEntry) (o l : Nat) (ho : o = e.offset)
    (hl : l = e.length) :
    ({ e with offset := o, length := l } : LookUpEntry) = e := by
  cases e
  simp_all

/-- Lookup positions outside the iterated indices are untouched by
`import_banks`. -/
theorem importBanks_untouched (files : Nat → Option (List Nat)) :
    ∀ (banksIdx : List (Bank × Nat)) (lookup : List LookUpEntry) (off : Nat)
      lkpNew out (j : Nat),
      importBanks files lookup off banksIdx = some (lkpNew, out) →
      j ∉ banksIdx.map Prod.snd →
      lkpNew.get? j = lookup.get? j := by
  intro banksIdx
  induction banksIdx with
  | nil =>
    intro lookup off lkpNew out j h _
    simp only [importBanks, Option.some.injEq, Prod.mk.injEq] at h
    obtain ⟨h1, -⟩ := h
    rw [← h1]
  | cons p rest ih =>
    obtain ⟨bank, index⟩ := p
    intro lookup off lkpNew out j h hj
    simp only [importBanks] at h
    simp only [List.map_cons, List.mem_cons, not_or] at hj
    obtain ⟨hj1, hj2⟩ := hj
    split at h
    · exact Option.noConfusion h
    next entry hidx =>
      split at h
      next buf hfb =>
        rw [Option.map_eq_some'] at h
        obtain ⟨⟨lkp', out'⟩, hrec, heq⟩ := h
        rw [Prod.mk.injEq] at heq
        dsimp only at heq
        obtain ⟨h1, -⟩ := heq
        subst h1
        rw [ih _ _ _ _ _ hrec hj2, List.get?_eq_getElem?, List.get?_eq_getElem?,
          List.getElem?_set_ne (Ne.symm hj1)]
      next hfb =>
        rw [Option.map_eq_some'] at h
        obtain ⟨⟨lkp', out'⟩, hrec, heq⟩ := h
        rw [Prod.mk.injEq] at heq
        dsimp only at heq
        obtain ⟨h1, -⟩ := heq
        subst h1
        rw [ih _ _ _ _ _ hrec hj2, List.get?_eq_getElem?, List.get?_eq_getElem?,
          List.getElem?_set_ne (Ne.symm hj1)]

/-- Setting an index outside the listed positions preserves a pointwise
`get?` description of the table. -/
theorem forall2_get_set (lookup : List LookUpEntry) (i : Nat) (v : LookUpEntry)
    (pairs : List (Nat × LookUpEntry)) (indexes : List Nat)
    (hf : List.Forall₂ (fun (p : Nat × LookUpEntry) (j : Nat) =>
      lookup.get? j = some p.2) pairs indexes)
    (hni : i ∉ indexes) :
    List.Forall₂ (fun (p : Nat × LookUpEntry) (j : Nat) =>
      (lookup.set i v).get? j = some p.2) pairs indexes := by
  induction hf with
  | nil => exact List.Forall₂.nil
  | cons hhead htail ih =>
    simp only [List.mem_cons, not_or] at hni
    refine List.Forall₂.cons ?_ (ih hni.2)
    rw [List.get?_eq_getElem?, List.getElem?_set_ne hni.1, ← List.get?_eq_getElem?]
    exact hhead

/-- Core of C2: when every emitted bank's bytes equal the original bank's
serialization, `import_banks` reproduces the serialized archive and leaves
every matched lookup entry equal to its original value. -/
theorem importBanks_identity (files : Nat → Option (List Nat)) :
    ∀ (banks : List Bank) (pairs : List (Nat × LookUpEntry)) (indexes : List Nat)
      (lookup : List LookUpEntry) (off : Nat) lkpNew out,
      importBanks files lookup off (banks.zip indexes) = some (lkpNew, out) →
      List.Forall₂ (fun (b : Bank) (p : Nat × LookUpEntry) =>
        b.bytes.length = p.2.length ∧ b.header.soundEntries.length ≤ 400)
        banks pairs →
      List.Forall₂ (fun (p : Nat × LookUpEntry) (i : Nat) =>
        lookup.get? i = some p.2) pairs indexes →
      indexes.Nodup →
      (∀ b ∈ banks, files b.index = none ∨ files b.index = some (serializeBank b)) →
      offChain off (pairs.map Prod.snd) = true →
      off + ((banks.map serializeBank).flatten).length < 4294967296 →
      out = (banks.map serializeBank).flatten ∧
      List.Forall₂ (fun (p : Nat × LookUpEntry) (i : Nat) =>
        lkpNew.get? i = some p.2) pairs indexes := by
  intro banks
  induction banks with
  | nil =>
    intro pairs indexes lookup off lkpNew out h hbp hlk _ _ _ _
    cases hbp
    cases hlk
    simp only [List.zip_nil_left, importBanks, Option.some.injEq,
      Prod.mk.injEq] at h
    obtain ⟨h1, h2⟩ := h
    subst h1 h2
    exact ⟨rfl, List.Forall₂.nil⟩
  | cons b banks' ih =>
    intro pairs indexes lookup off lkpNew out h hbp hlk hnodup hfiles hchain hlt
    obtain ⟨p, pairs', hbphead, hbp'⟩ :
        ∃ p pairs', pairs = p :: pairs' ∧ True := by
      cases hbp
      exact ⟨_, _, rfl, trivial⟩
    subst hbphead
    cases hbp with
    | cons hbphead hbp' =>
    cases hlk with
    | cons hlkhead hlk' =>
    rename_i i indexes'
    simp only [List.zip_cons_cons, importBanks] at h
    simp only [List.nodup_cons] at hnodup
    obtain ⟨hnotin, hnodup'⟩ := hnodup
    simp only [List.map_cons, offChain, Bool.and_eq_true, beq_iff_eq] at hchain
    obtain ⟨hoff, hchain'⟩ := hchain
    have hfiles' : ∀ x ∈ banks', files x.index = none
        ∨ files x.index = some (serializeBank x) :=
      fun x hx => hfiles x (List.mem_cons_of_mem _ hx)
    have hserlen : (serializeBank b).length = BankHeaderSIZE + b.bytes.length := by
      rw [serializeBank, List.length_append, writeBankHeader_length _ hbphead.2]
    rw [List.map_cons, List.flatten_cons, List.length_append] at hlt
    have hmodL : b.bytes.length % 4294967296 = b.bytes.length :=
      Nat.mod_eq_of_lt (by omega)
    have hinlen : i < lookup.length := (List.get?_eq_some.mp hlkhead).1
    split at h
    next hidx =>
      rw [hlkhead] at hidx
      exact Option.noConfusion hidx
    next entry hidx =>
      rw [hlkhead] at hidx
      rw [Option.some.injEq] at hidx
      subst hidx
      have hseteq : lookup.set i
          ({ p.2 with offset := off, length := b.bytes.length % 4294967296 })
          = lookup.set i p.2 := by
        rw [LookUpEntry_eta p.2 off (b.bytes.length % 4294967296) hoff.symm
          (by rw [hmodL, hbphead.1])]
      split at h
      next buf hfb =>
        have hbufeq : buf = serializeBank b := by
          rcases hfiles b (List.mem_cons_self b banks') with hn | hs
          · rw [hn] at hfb; exact Option.noConfusion hfb
          · rw [hs] at hfb; exact (Option.some.inj hfb).symm
        subst hbufeq
        rw [Option.map_eq_some'] at h
        obtain ⟨⟨lkp', out'⟩, hrec, heq⟩ := h
        rw [Prod.mk.injEq] at heq
        dsimp only at heq
        obtain ⟨h1, h2⟩ := heq
        subst h1
        have hlensub : ((serializeBank b).length - BankHeaderSIZE) % 4294967296
            = b.bytes.length % 4294967296 := by
          rw [hserlen]
          omega
        have hoffadv : (off + (serializeBank b).length) % 4294967296
            = off + p.2.length + BankHeaderSIZE := by
          rw [hserlen, Nat.mod_eq_of_lt (by omega), hbphead.1]
          omega
        rw [hlensub, hseteq, hoffadv] at hrec
        have hlk'' : List.Forall₂ (fun (q : Nat × LookUpEntry) (j : Nat) =>
            (lookup.set i p.2).get? j = some q.2) pairs' indexes' :=
          forall2_get_set lookup i p.2 pairs' indexes' hlk' hnotin
        obtain ⟨hout', hf2'⟩ := ih pairs' indexes' _ _ _ _ hrec hbp' hlk'' hnodup'
          hfiles' hchain' (by omega)
        constructor
        · rw [← h2, hout', List.map_cons, List.flatten_cons]
        · refine List.Forall₂.cons ?_ hf2'
          rw [importBanks_untouched files _ _ _ _ _ i hrec ?_,
            List.get?_eq_getElem?, List.getElem?_set_eq_of_lt _ hinlen]
          · intro hmem
            rw [List.mem_map] at hmem
            obtain ⟨⟨qa, qb⟩, hq, hqi⟩ := hmem
            cases hqi
            exact hnotin (List.of_mem_zip hq).2
      next hfb =>
        rw [Option.map_eq_some'] at h
        obtain ⟨⟨lkp', out'⟩, hrec, heq⟩ := h
        rw [Prod.mk.injEq] at heq
        dsimp only at heq
        obtain ⟨h1, h2⟩ := heq
        subst h1
        have hoffadv : (off + b.len) % 4294967296
            = off + p.2.length + BankHeaderSIZE := by
          unfold Bank.len
          rw [Nat.mod_eq_of_lt (by omega), hbphead.1]
          omega
        rw [hseteq, hoffadv] at hrec
        have hlk'' : List.Forall₂ (fun (q : Nat × LookUpEntry) (j : Nat) =>
            (lookup.set i p.2).get? j = some q.2) pairs' indexes' :=
          forall2_get_set lookup i p.2 pairs' indexes' hlk' hnotin
        obtain ⟨hout', hf2'⟩ := ih pairs' indexes' _ _ _ _ hrec hbp' hlk'' hnodup'
          hfiles' hchain' (by omega)
        constructor
        · rw [← h2, hout', List.map_cons, List.flatten_cons]
        · refine List.Forall₂.cons ?_ hf2'
          rw [importBanks_untouched files _ _ _ _ _ i hrec ?_,
            List.get?_eq_getElem?, List.getElem?_set_eq_of_lt _ hinlen]
          · intro hmem
            rw [List.mem_map] at hmem
            obtain ⟨⟨qa, qb⟩, hq, hqi⟩ := hmem
            cases hqi
            exact hnotin (List.of_mem_zip hq).2

/-- **C2**: bank-import is an identity when nothing is (effectively)
replaced.  For a well-formed archive (banks tile the file, entries
back-to-back from offset 0, header slack zero) whose lookup table matches
its entries, if every iterated bank's emitted bytes come from the original
bank — no replacement `.bnk` applies, or the replacement equals the bank's
own serialization (the export-then-reimport case) — then the output archive
is byte-identical to the original and every matched lookup entry is
unchanged: its length is kept and its offset is rewritten to the running
offset, which reproduces the original offsets. -/
theorem C2_bank_import_identity (files : Nat → Option (List Nat))
    (pairs : List (Nat × LookUpEntry)) (indexes : List Nat) (archive : List Nat)
    (lookup lkpNew : List LookUpEntry) (banks : List Bank) (out : List Nat)
    (hread : readBanks pairs archive = some (banks, []))
    (hb : ∀ x ∈ archive, x < 256)
    (hslack : slackOkAll pairs archive = true)
    (hrun : importBanks files lookup 0 (banks.zip indexes) = some (lkpNew, out))
    (hlk : List.Forall₂ (fun (p : Nat × LookUpEntry) (i : Nat) =>
      lookup.get? i = some p.2) pairs indexes)
    (hnodup : indexes.Nodup)
    (hfiles : ∀ b ∈ banks,
      files b.index = none ∨ files b.index = some (serializeBank b))
    (hchain : offChain 0 (pairs.map Prod.snd) = true)
    (hsize : archive.length < 4294967296) :
    out = archive ∧
    List.Forall₂ (fun (p : Nat × LookUpEntry) (i : Nat) =>
      lkpNew.get? i = some p.2) pairs indexes := by
  obtain ⟨hflat, hf2⟩ := readBanks_serialize pairs archive banks [] hread hb hslack
  rw [List.append_nil] at hflat
  obtain ⟨hout, hf2'⟩ := importBanks_identity files banks pairs indexes lookup 0
    lkpNew out hrun hf2 hlk hnodup hfiles hchain (by rw [hflat]; omega)
  exact ⟨by rw [hout, hflat], hf2'⟩

theorem splitAtExact_replicate (n m : Nat) (h : n ≤ m) :
    splitAtExact n (List.replicate m (0 : Nat))
      = some (List.replicate n 0, List.replicate (m - n) 0) := by
  unfold splitAtExact
  rw [if_pos (by rw [List.length_replicate]; exact h), List.take_replicate,
    List.drop_replicate, Nat.min_eq_left h]

theorem replicate_all_zero (n : Nat) :
    (List.replicate n (0 : Nat)).all (· == 0) = true := by
  rw [List.all_eq_true]
  intro x hx
  rw [List.eq_of_mem_replicate hx]
  rfl

/-- **C2** witness: a one-bank archive of 4,804 zero bytes (empty bank, no
sounds, zero-length payload) with no replacement files re-imports to the
identical archive and an unchanged lookup entry. -/
theorem C2_bank_import_identity_witness :
    serializeBank ⟨0, ⟨0, []⟩, []⟩ ++ [] = List.replicate 4804 (0 : Nat) ∧
    List.Forall₂ (fun (p : Nat × LookUpEntry) (i : Nat) =>
        ([⟨0, [0, 0, 0], 0, 0⟩] : List LookUpEntry).get? i = some p.2)
      [(0, ⟨0, [0, 0, 0], 0, 0⟩)] [0] := by
  have h1 := splitAtExact_replicate 2 4804 (by omega)
  have h2 := splitAtExact_replicate 2 4802 (by omega)
  have h3 := splitAtExact_replicate (400 * 12) 4800 (by norm_num)
  have hlev : leVal (List.replicate 2 (0 : Nat)) = 0 := by decide
  have hread : readBanks [(0, ⟨0, [0, 0, 0], 0, 0⟩)] (List.replicate 4804 0)
      = some ([⟨0, ⟨0, []⟩, []⟩], []) := by
    have hparse : parseBankHeader 0 (List.replicate 4804 0)
        = some (⟨0, []⟩, []) := by
      unfold parseBankHeader
      simp only [h1, show (4804 - 2 : Nat) = 4802 from rfl]
      simp only [h2, show (4802 - 2 : Nat) = 4800 from rfl, hlev]
      rw [if_pos (show (0 : Nat) ≤ 400 by norm_num)]
      simp only [h3]
      rfl
    simp only [readBanks, hparse]
    rfl
  have hb : ∀ x ∈ List.replicate 4804 (0 : Nat), x < 256 := by
    intro x hx
    rw [List.eq_of_mem_replicate hx]
    omega
  have htake2 : (List.replicate 4804 (0 : Nat)).take 2 = List.replicate 2 0 := by
    rw [List.take_replicate]
    norm_num
  have htake4804 : (List.replicate 4804 (0 : Nat)).take 4804
      = List.replicate 4804 0 := by
    rw [List.take_replicate, Nat.min_self]
  have hslack : slackOkAll [(0, ⟨0, [0, 0, 0], 0, 0⟩)] (List.replicate 4804 0)
      = true := by
    simp only [slackOkAll, htake2, htake4804, hlev, Bool.and_eq_true]
    constructor
    · rw [show (4 + 12 * 0 : Nat) = 4 from by norm_num, List.drop_replicate]
      exact replicate_all_zero _
    · trivial
  exact C2_bank_import_identity (fun _ => none) [(0, ⟨0, [0, 0, 0], 0, 0⟩)] [0]
    (List.replicate 4804 0) [⟨0, [0, 0, 0], 0, 0⟩] [⟨0, [0, 0, 0], 0, 0⟩]
    [⟨0, ⟨0, []⟩, []⟩] (serializeBank ⟨0, ⟨0, []⟩, []⟩ ++ [])
    hread hb hslack rfl
    (List.Forall₂.cons rfl List.Forall₂.nil) (by simp)
    (fun b _ => Or.inl rfl) (by decide)
    (by rw [List.length_replicate]; omega)

/-! ## PS2 VAG container (`utils/vag/mod.rs`) -/

/-- Big-endian value of a byte string (the VAG header is `#[brw(big)]`). -/
def beVal (b : List Nat) : Nat := leVal b.reverse

/-- `width` big-endian bytes of `value`. -/
def natBE (w v : Nat) : List Nat := (natLE w v).reverse

theorem natBE_beVal (w : Nat) (b : List Nat) (hw : b.length = w)
    (hb : ∀ x ∈ b, x < 256) : natBE w (beVal b) = b := by
  unfold natBE beVal
  rw [natLE_leVal w _ (by rw [List.length_reverse]; exact hw)
    (fun x hx => hb x (List.mem_reverse.mp hx)), List.reverse_reverse]

theorem leVal_lt (b : List Nat) (hb : ∀ x ∈ b, x < 256) :
    leVal b < 256 ^ b.length := by
  induction b with
  | nil => simp [leVal]
  | cons x rest ih =>
    have hx : x < 256 := hb x (List.mem_cons_self _ _)
    have hr := ih (fun y hy => hb y (List.mem_cons_of_mem _ hy))
    simp only [leVal, List.length_cons, pow_succ]
    calc x + 256 * leVal rest < 256 + 256 * leVal rest := by omega
    _ = 256 * (leVal rest + 1) := by ring
    _ ≤ 256 * 256 ^ rest.length := by
        have : leVal rest + 1 ≤ 256 ^ rest.length := hr
        exact Nat.mul_le_mul_left 256 this
    _ = 256 ^ rest.length * 256 := by ring

/-- Two's-complement decode of a 16-bit pattern (`i16` fields). -/
def i16OfBits (v : Nat) : Int :=
  if v < 32768 then (v : Int) else (v : Int) - 65536

/-- Two's-complement 16-bit pattern of an `i16` value. -/
def bitsOfI16 (x : Int) : Nat := ((x + 65536) % 65536).toNat

theorem bitsOfI16_i16OfBits (v : Nat) (h : v < 65536) :
    bitsOfI16 (i16OfBits v) = v := by
  unfold bitsOfI16 i16OfBits
  split <;> omega

/-- The `VAGFlag` enum (`#[brw(repr(u8))]`, values 0..=7). -/
inductive VAGFlag where
  | Nothing
  | LoopLastBlock
  | LoopRegion
  | LoopEnd
  | LoopFirstBlock
  | Unk
  | LoopStart
  | PlaybackEnd
  deriving Repr, DecidableEq

def VAGFlag.toNat : VAGFlag → Nat
  | .Nothing => 0
  | .LoopLastBlock => 1
  | .LoopRegion => 2
  | .LoopEnd => 3
  | .LoopFirstBlock => 4
  | .Unk => 5
  | .LoopStart => 6
  | .PlaybackEnd => 7

/-- `TryFrom<u8> for VAGFlag`. -/
def VAGFlag.ofNat? : Nat → Option VAGFlag
  | 0 => some .Nothing
  | 1 => some .LoopLastBlock
  | 2 => some .LoopRegion
  | 3 => some .LoopEnd
  | 4 => some .LoopFirstBlock
  | 5 => some .Unk
  | 6 => some .LoopStart
  | 7 => some .PlaybackEnd
  | _ => none

theorem VAGFlag.toNat_ofNat? (n : Nat) (f : VAGFlag) (h : VAGFlag.ofNat? n = some f) :
    f.toNat = n := by
  unfold VAGFlag.ofNat? at h
  split at h <;> first
    | exact Option.noConfusion h
    | (cases Option.some.inj h; rfl)

/-- One 16-byte VAG chunk: `pack_info`, `flags`, 14 sample bytes
(little-endian on disk). -/
structure VAGChunk where
  packInfos : Nat
  flags : VAGFlag
  sample : List Nat
  deriving Repr, DecidableEq

/-- Serialize one chunk. -/
def writeChunk (c : VAGChunk) : List Nat :=
  c.packInfos :: c.flags.toNat :: c.sample

/-- Parse `n` 16-byte chunks. -/
def parseChunks : Nat → List Nat → Option (List VAGChunk × List Nat)
  | 0, bytes => some ([], bytes)
  | n + 1, p0 :: f0 :: bytes =>
      if 14 ≤ bytes.length then
        match VAGFlag.ofNat? f0 with
        | none => none
        | some flag =>
            (parseChunks n (bytes.drop 14)).map fun p =>
              (⟨p0, flag, bytes.take 14⟩ :: p.1, p.2)
      else none
  | _, _ => none

theorem parseChunks_roundtrip :
    ∀ (n : Nat) (bytes : List Nat) chunks rest,
      parseChunks n bytes = some (chunks, rest) →
      (chunks.map writeChunk).flatten ++ rest = bytes ∧ chunks.length = n := by
  intro n
  induction n with
  | zero =>
    intro bytes chunks rest h
    simp only [parseChunks, Option.some.injEq, Prod.mk.injEq] at h
    obtain ⟨h1, h2⟩ := h
    subst h1 h2
    exact ⟨rfl, rfl⟩
  | succ m ih =>
    intro bytes chunks rest h
    match bytes with
    | [] => exact Option.noConfusion h
    | [p0] => exact Option.noConfusion h
    | p0 :: f0 :: bytes =>
      simp only [parseChunks] at h
      split at h
      next hlen =>
        split at h
        · exact Option.noConfusion h
        next flag hflag =>
          rw [Option.map_eq_some'] at h
          obtain ⟨⟨chunks', rest'⟩, hrec, heq⟩ := h
          rw [Prod.mk.injEq] at heq
          dsimp only at heq
          obtain ⟨h1, h2⟩ := heq
          subst h1 h2
          obtain ⟨hflat, hlen'⟩ := ih _ _ _ hrec
          constructor
          · simp only [List.map_cons, List.flatten_cons, writeChunk,
              List.append_assoc, List.cons_append]
            rw [hflat]
            rw [VAGFlag.toNat_ofNat? _ _ hflag, List.take_append_drop]
          · simp [hlen']
      next => exact Option.noConfusion h

/-- The VAG container (`Vag` in `utils/vag/mod.rs`): big-endian header
(`magic "VAGp"`, `version`, `ssa`, `size` with the `(size - 16) % 16 == 0`
assert where the subtraction wraps as `u32`, `sample_rate`, five `i16`
fields, `channels ≤ 1` assert, 16-byte `name`, 16-byte opaque
`vag_header`), then `(size - 16) / 16` little-endian 16-byte chunks. -/
structure Vag where
  version : Nat
  ssa : Nat
  sampleRate : Nat
  volLeft : Int
  volRight : Int
  pitch : Int
  adsr1 : Int
  adsr2 : Int
  channels : Nat
  name : List Nat
  vagHeader : List Nat
  chunks : List VAGChunk
  deriving Repr, DecidableEq

/-- `Vag::read`: the header fields are read in sequence (big-endian), each
read failing on a short stream; the two `assert`s become guards. -/
def parseVag (x : List Nat) : Option (Vag × List Nat) :=
  (splitAtExact 4 x).bind fun (magicB, r0) =>
  if magicB = [86, 65, 71, 112] then
    (splitAtExact 4 r0).bind fun (verB, r1) =>
    (splitAtExact 4 r1).bind fun (ssaB, r2) =>
    (splitAtExact 4 r2).bind fun (sizeB, r3) =>
    if (beVal sizeB + 4294967296 - 16) % 16 = 0 then
      (splitAtExact 4 r3).bind fun (rateB, r4) =>
      (splitAtExact 2 r4).bind fun (vlB, r5) =>
      (splitAtExact 2 r5).bind fun (vrB, r6) =>
      (splitAtExact 2 r6).bind fun (piB, r7) =>
      (splitAtExact 2 r7).bind fun (a1B, r8) =>
      (splitAtExact 2 r8).bind fun (a2B, r9) =>
      (splitAtExact 2 r9).bind fun (chB, r10) =>
      if beVal chB ≤ 1 then
        (splitAtExact 16 r10).bind fun (nameB, r11) =>
        (splitAtExact 16 r11).bind fun (hdrB, r12) =>
        (parseChunks ((beVal sizeB + 4294967296 - 16)
            % 4294967296 / 16) r12).bind fun (chunks, rest) =>
        some ({ version := beVal verB,
                ssa := beVal ssaB,
                sampleRate := beVal rateB,
                volLeft := i16OfBits (beVal vlB),
                volRight := i16OfBits (beVal vrB),
                pitch := i16OfBits (beVal piB),
                adsr1 := i16OfBits (beVal a1B),
                adsr2 := i16OfBits (beVal a2B),
                channels := beVal chB,
                name := nameB,
                vagHeader := hdrB,
                chunks := chunks }, rest)
      else none
    else none
  else none

/-- `Vag::write`: the `size` field is recomputed as
`chunks.len() * 16 + 16` (cast `as u32`). -/
def writeVag (v : Vag) : List Nat :=
  [86, 65, 71, 112] ++ natBE 4 v.version ++ natBE 4 v.ssa
    ++ natBE 4 ((v.chunks.length * 16 + 16) % 4294967296) ++ natBE 4 v.sampleRate
    ++ natBE 2 (bitsOfI16 v.volLeft) ++ natBE 2 (bitsOfI16 v.volRight)
    ++ natBE 2 (bitsOfI16 v.pitch) ++ natBE 2 (bitsOfI16 v.adsr1)
    ++ natBE 2 (bitsOfI16 v.adsr2) ++ natBE 2 v.channels
    ++ v.name ++ v.vagHeader ++ (v.chunks.map writeChunk).flatten

theorem beVal_lt (b : List Nat) (hb : ∀ x ∈ b, x < 256) :
    beVal b < 256 ^ b.length := by
  unfold beVal
  have := leVal_lt b.reverse (fun x hx => hb x (List.mem_reverse.mp hx))
  rwa [List.length_reverse] at this

theorem splitAtExact_piece (n : Nat) (l a b : List Nat)
    (h : splitAtExact n l = some (a, b)) (hball : ∀ x ∈ l, x < 256) :
    a.length = n ∧ (∀ x ∈ a, x < 256) ∧ (∀ x ∈ b, x < 256) ∧ a ++ b = l := by
  obtain ⟨ha, hbb, hn⟩ := splitAtExact_eq n l a b h
  subst ha hbb
  exact ⟨by rw [List.length_take]; omega,
    fun x hx => hball x (List.mem_of_mem_take hx),
    fun x hx => hball x (List.mem_of_mem_drop hx),
    List.take_append_drop n l⟩

/-- **C9**: for every well-formed VAG byte string (valid magic, size assert,
`channels ≤ 1`, flag bytes `0..=7` — exactly the conditions under which
`Vag::read` succeeds — and bytes in range), writing the parsed value back
reproduces the input byte-for-byte: the header is re-emitted big-endian with
`size` recomputed as `chunks * 16 + 16`, and the chunks little-endian. -/
theorem C9_vag_container_roundtrip (x : List Nat) (v : Vag) (rest : List Nat)
    (hp : parseVag x = some (v, rest)) (hb : ∀ b ∈ x, b < 256) :
    writeVag v ++ rest = x := by
  rw [parseVag] at hp
  rw [Option.bind_eq_some] at hp
  obtain ⟨⟨magicB, r0⟩, hsm, hp⟩ := hp
  dsimp only at hp
  by_cases hmagic : magicB = [86, 65, 71, 112]
  swap
  · rw [if_neg hmagic] at hp; exact Option.noConfusion hp
  rw [if_pos hmagic] at hp
  rw [Option.bind_eq_some] at hp
  obtain ⟨⟨verB, r1⟩, hs0, hp⟩ := hp
  dsimp only at hp
  rw [Option.bind_eq_some] at hp
  obtain ⟨⟨ssaB, r2⟩, hs1, hp⟩ := hp
  dsimp only at hp
  rw [Option.bind_eq_some] at hp
  obtain ⟨⟨sizeB, r3⟩, hs2, hp⟩ := hp
  dsimp only at hp
  by_cases hsz : (beVal sizeB + 4294967296 - 16) % 16 = 0
  swap
  · rw [if_neg hsz] at hp; exact Option.noConfusion hp
  rw [if_pos hsz] at hp
  rw [Option.bind_eq_some] at hp
  obtain ⟨⟨rateB, r4⟩, hs3, hp⟩ := hp
  dsimp only at hp
  rw [Option.bind_eq_some] at hp
  obtain ⟨⟨vlB, r5⟩, hs4, hp⟩ := hp
  dsimp only at hp
  rw [Option.bind_eq_some] at hp
  obtain ⟨⟨vrB, r6⟩, hs5, hp⟩ := hp
  dsimp only at hp
  rw [Option.bind_eq_some] at hp
  obtain ⟨⟨piB, r7⟩, hs6, hp⟩ := hp
  dsimp only at hp
  rw [Option.bind_eq_some] at hp
  obtain ⟨⟨a1B, r8⟩, hs7, hp⟩ := hp
  dsimp only at hp
  rw [Option.bind_eq_some] at hp
  obtain ⟨⟨a2B, r9⟩, hs8, hp⟩ := hp
  dsimp only at hp
  rw [Option.bind_eq_some] at hp
  obtain ⟨⟨chB, r10⟩, hs9, hp⟩ := hp
  dsimp only at hp
  by_cases hch : beVal chB ≤ 1
  swap
  · rw [if_neg hch] at hp; exact Option.noConfusion hp
  rw [if_pos hch] at hp
  rw [Option.bind_eq_some] at hp
  obtain ⟨⟨nameB, r11⟩, hs10, hp⟩ := hp
  dsimp only at hp
  rw [Option.bind_eq_some] at hp
  obtain ⟨⟨hdrB, r12⟩, hs11, hp⟩ := hp
  dsimp only at hp
  rw [Option.bind_eq_some] at hp
  obtain ⟨⟨chunks, rest0⟩, hpc, hp⟩ := hp
  dsimp only at hp
  have hinj := Option.some.inj hp
  rw [Prod.mk.injEq] at hinj
  obtain ⟨hv, hrest⟩ := hinj
  subst hv
  subst hrest
  obtain ⟨lenM, hbM, hbr0, cM⟩ := splitAtExact_piece _ _ _ _ hsm hb
  obtain ⟨len0, hbv0, hbr1, c0⟩ := splitAtExact_piece _ _ _ _ hs0 hbr0
  obtain ⟨len1, hbv1, hbr2, c1⟩ := splitAtExact_piece _ _ _ _ hs1 hbr1
  obtain ⟨len2, hbv2, hbr3, c2⟩ := splitAtExact_piece _ _ _ _ hs2 hbr2
  obtain ⟨len3, hbv3, hbr4, c3⟩ := splitAtExact_piece _ _ _ _ hs3 hbr3
  obtain ⟨len4, hbv4, hbr5, c4⟩ := splitAtExact_piece _ _ _ _ hs4 hbr4
  obtain ⟨len5, hbv5, hbr6, c5⟩ := splitAtExact_piece _ _ _ _ hs5 hbr5
  obtain ⟨len6, hbv6, hbr7, c6⟩ := splitAtExact_piece _ _ _ _ hs6 hbr6
  obtain ⟨len7, hbv7, hbr8, c7⟩ := splitAtExact_piece _ _ _ _ hs7 hbr7
  obtain ⟨len8, hbv8, hbr9, c8⟩ := splitAtExact_piece _ _ _ _ hs8 hbr8
  obtain ⟨len9, hbv9, hbr10, c9⟩ := splitAtExact_piece _ _ _ _ hs9 hbr9
  obtain ⟨len10, hbv10, hbr11, c10⟩ := splitAtExact_piece _ _ _ _ hs10 hbr10
  obtain ⟨len11, hbv11, hbr12, c11⟩ := splitAtExact_piece _ _ _ _ hs11 hbr11
  obtain ⟨c12, hcount⟩ := parseChunks_roundtrip _ _ _ _ hpc
  have pVer : natBE 4 (beVal verB) = verB := natBE_beVal 4 verB len0 hbv0
  have pSsa : natBE 4 (beVal ssaB) = ssaB := natBE_beVal 4 ssaB len1 hbv1
  have pRate : natBE 4 (beVal rateB) = rateB := natBE_beVal 4 rateB len3 hbv3
  have hszlt : beVal sizeB < 4294967296 := by
    have := beVal_lt sizeB hbv2
    rw [len2] at this
    omega
  have pSize : natBE 4 ((chunks.length * 16 + 16) % 4294967296) = sizeB := by
    have heq : (chunks.length * 16 + 16) % 4294967296 = beVal sizeB := by
      rw [hcount]
      omega
    rw [heq]
    exact natBE_beVal 4 sizeB len2 hbv2
  have pVl : natBE 2 (bitsOfI16 (i16OfBits (beVal vlB))) = vlB := by
    rw [bitsOfI16_i16OfBits _ (by have := beVal_lt vlB hbv4; rw [len4] at this; omega)]
    exact natBE_beVal 2 vlB len4 hbv4
  have pVr : natBE 2 (bitsOfI16 (i16OfBits (beVal vrB))) = vrB := by
    rw [bitsOfI16_i16OfBits _ (by have := beVal_lt vrB hbv5; rw [len5] at this; omega)]
    exact natBE_beVal 2 vrB len5 hbv5
  have pPi : natBE 2 (bitsOfI16 (i16OfBits (beVal piB))) = piB := by
    rw [bitsOfI16_i16OfBits _ (by have := beVal_lt piB hbv6; rw [len6] at this; omega)]
    exact natBE_beVal 2 piB len6 hbv6
  have pA1 : natBE 2 (bitsOfI16 (i16OfBits (beVal a1B))) = a1B := by
    rw [bitsOfI16_i16OfBits _ (by have := beVal_lt a1B hbv7; rw [len7] at this; omega)]
    exact natBE_beVal 2 a1B len7 hbv7
  have pA2 : natBE 2 (bitsOfI16 (i16OfBits (beVal a2B))) = a2B := by
    rw [bitsOfI16_i16OfBits _ (by have := beVal_lt a2B hbv8; rw [len8] at this; omega)]
    exact natBE_beVal 2 a2B len8 hbv8
  have pCh : natBE 2 (beVal chB) = chB := natBE_beVal 2 chB len9 hbv9
  simp only [writeVag, List.append_assoc, List.cons_append, List.nil_append]
  rw [pVer, pSsa, pSize, pRate, pVl, pVr, pPi, pA1, pA2, pCh]
  rw [c12, c11, c10, c9, c8, c7, c6, c5, c4, c3, c2, c1, c0]
  rw [show (86 :: 65 :: 71 :: 112 :: r0 : List Nat) = [86, 65, 71, 112] ++ r0
    from rfl, ← hmagic, cM]

/-- **C9** witness: an 80-byte VAG (one chunk) parses and re-serializes to
itself. -/
theorem C9_vag_container_roundtrip_witness :
    writeVag ⟨32, 0, 22050, 0, 0, 0, 0, 0, 0,
        [115,111,117,110,100,0,0,0,0,0,0,0,0,0,0,0],
        [1,2,3,4,5,6,7,8,9,10,11,12,13,14,15,16],
        [⟨0, VAGFlag.PlaybackEnd, [0,0,0,0,0,0,0,0,0,0,0,0,0,0]⟩]⟩ ++ []
      = [86, 65, 71, 112,
         0, 0, 0, 32,
         0, 0, 0, 0,
         0, 0, 0, 32,
         0, 0, 86, 34,
         0, 0, 0, 0, 0, 0, 0, 0, 0, 0,
         0, 0,
         115, 111, 117, 110, 100, 0, 0, 0, 0, 0, 0, 0, 0, 0, 0, 0,
         1, 2, 3, 4, 5, 6, 7, 8, 9, 10, 11, 12, 13, 14, 15, 16,
         0, 7, 0, 0, 0, 0, 0, 0, 0, 0, 0, 0, 0, 0, 0, 0] :=
  C9_vag_container_roundtrip _ _ _ (by decide) (by decide)

/-! ## VAG decoder (`utils/vag/decoder.rs`) -/

/-- The decoder coefficient table, as the exact rationals the `f64`
constants `[[0,0],[60/64,0],[115/64,-52/64],[98/64,-55/64],[122/64,-60/64]]`
denote. -/
def VAG_LUT_DECODER : List (ℚ × ℚ) :=
  [(0, 0), (60/64, 0), (115/64, -52/64), (98/64, -55/64), (122/64, -60/64)]

/-- `sample << 12` then sign-extension through `| 0xFFFF0000` when bit 15 is
set (nibble `n < 16`). -/
def signExt12 (n : Nat) : Int :=
  if n * 4096 < 32768 then (n * 4096 : Int) else (n * 4096 : Int) - 65536

/-- Truncation toward zero (the rounding of Rust's `as i16` float cast). -/
def ratTrunc (q : ℚ) : Int := if 0 ≤ q then ⌊q⌋ else ⌈q⌉

/-- Saturation to the `i16` range (`as i16` saturates; the explicit
`min`/`max` in the source are then no-ops). -/
def clampI16 (z : Int) : Int := max (-32768) (min 32767 z)

/-- The 28 4-bit nibbles of a chunk's 14 sample bytes, low nibble first. -/
def chunkNibbles (sample : List Nat) : List Nat :=
  sample.flatMap fun b => [b % 16, b / 16]

/-- Decode a run of nibbles, threading `hist_1`/`hist_2`: each nibble is
sign-extended, arithmetically shifted right by `shift`, fed through the
two-tap predictor `s = shifted + hist_1 * row.1 + hist_2 * row.2`, the
histories update `hist_2 := hist_1; hist_1 := s`, and the emitted sample is
`s` clamped to `i16`. -/
def decodeNibbles (row : ℚ × ℚ) (shift : Nat) :
    List Nat → ℚ → ℚ → List Int × ℚ × ℚ
  | [], h1, h2 => ([], h1, h2)
  | n :: rest, h1, h2 =>
      let sq : ℚ := ((Int.fdiv (signExt12 n) (2 ^ shift) : Int) : ℚ)
        + h1 * row.1 + h2 * row.2
      let p := decodeNibbles row shift rest sq h1
      (clampI16 (ratTrunc sq) :: p.1, p.2)

/-- Decode one chunk: predictor index `pack >> 4` clamped to at most 4,
shift factor `pack & 0xF`. -/
def decodeChunk (c : VAGChunk) (h1 h2 : ℚ) : List Int × ℚ × ℚ :=
  decodeNibbles (VAG_LUT_DECODER.getD (min (c.packInfos / 16) 4) (0, 0))
    (c.packInfos % 16) (chunkNibbles c.sample) h1 h2

/-- `SampleDecoder`, iterated to exhaustion: halts at the first chunk whose
flags equal `PlaybackEnd`, otherwise emits the chunk's 28 samples and
continues with the updated history. -/
def decodeAll : List VAGChunk → ℚ → ℚ → List Int
  | [], _, _ => []
  | c :: rest, h1, h2 =>
      if c.flags = VAGFlag.PlaybackEnd then []
      else
        (decodeChunk c h1 h2).1 ++ decodeAll rest (decodeChunk c h1 h2).2.1
          (decodeChunk c h1 h2).2.2

/-- The same decoding run without the halt check (the claim's
characterization target: the decoder processes exactly the chunks before
the first `PlaybackEnd`). -/
def decodeRun : List VAGChunk → ℚ → ℚ → List Int
  | [], _, _ => []
  | c :: rest, h1, h2 =>
      (decodeChunk c h1 h2).1 ++ decodeRun rest (decodeChunk c h1 h2).2.1
        (decodeChunk c h1 h2).2.2

theorem clampI16_range (z : Int) : -32768 ≤ clampI16 z ∧ clampI16 z ≤ 32767 := by
  unfold clampI16
  omega

theorem decodeNibbles_mem_range (row : ℚ × ℚ) (shift : Nat) :
    ∀ (ns : List Nat) (h1 h2 : ℚ) s,
      s ∈ (decodeNibbles row shift ns h1 h2).1 → -32768 ≤ s ∧ s ≤ 32767 := by
  intro ns
  induction ns with
  | nil =>
    intro h1 h2 s hs
    simp [decodeNibbles] at hs
  | cons n rest ih =>
    intro h1 h2 s hs
    simp only [decodeNibbles, List.mem_cons] at hs
    rcases hs with rfl | hs
    · exact clampI16_range _
    · exact ih _ _ s hs

/-- **C8**: the decoder halts at the first `PlaybackEnd` chunk — its output
is exactly the no-halt decode of the `takeWhile (flags ≠ PlaybackEnd)`
prefix, where each chunk expands its 14 bytes into 28 low-nibble-first
4-bit samples, sign-extends them shifted left by 12, arithmetic-right-shifts
by the chunk's shift factor, applies the two-tap predictor with the
canonical table and the predictor index clamped to at most 4, and updates
`hist_2 := hist_1; hist_1 := s` — and every emitted sample lies in
`[i16::MIN, i16::MAX]`. -/
theorem C8_decoder_halt_and_range (chunks : List VAGChunk) (h1 h2 : ℚ) :
    decodeAll chunks h1 h2
      = decodeRun (chunks.takeWhile fun c =>
          !(c.flags == VAGFlag.PlaybackEnd)) h1 h2 ∧
    ∀ s ∈ decodeAll chunks h1 h2, -32768 ≤ s ∧ s ≤ 32767 := by
  constructor
  · induction chunks generalizing h1 h2 with
    | nil => rfl
    | cons c rest ih =>
      by_cases hf : c.flags = VAGFlag.PlaybackEnd
      · simp [decodeAll, decodeRun, List.takeWhile, hf]
      · simp only [decodeAll, hf, if_neg, not_false_iff, List.takeWhile]
        rw [show (!(c.flags == VAGFlag.PlaybackEnd)) = true by
          simp [beq_iff_eq, hf]]
        simp only [decodeRun]
        rw [ih]
  · induction chunks generalizing h1 h2 with
    | nil =>
      intro s hs
      simp [decodeAll] at hs
    | cons c rest ih =>
      intro s hs
      by_cases hf : c.flags = VAGFlag.PlaybackEnd
      · simp [decodeAll, hf] at hs
      · simp only [decodeAll, hf, if_neg, not_false_iff, List.mem_append] at hs
        rcases hs with hs | hs
        · exact decodeNibbles_mem_range _ _ _ _ _ s hs
        · exact ih _ _ s hs

set_option maxRecDepth 8192 in
/-- **C8** witness: theorem applied to a two-chunk sequence whose second
chunk is a `PlaybackEnd` terminator; the first emitted sample of the
all-zero first chunk is 0, within the `i16` range. -/
theorem C8_decoder_halt_and_range_witness :
    (-32768 ≤ (0 : Int) ∧ (0 : Int) ≤ 32767) ∧
    decodeAll [⟨0, VAGFlag.Nothing, [0,0,0,0,0,0,0,0,0,0,0,0,0,0]⟩,
               ⟨0, VAGFlag.PlaybackEnd, [0,0,0,0,0,0,0,0,0,0,0,0,0,0]⟩] 0 0
      = decodeRun ([⟨0, VAGFlag.Nothing, [0,0,0,0,0,0,0,0,0,0,0,0,0,0]⟩,
               ⟨0, VAGFlag.PlaybackEnd, [0,0,0,0,0,0,0,0,0,0,0,0,0,0]⟩].takeWhile
          fun c => !(c.flags == VAGFlag.PlaybackEnd)) 0 0 :=
  ⟨(C8_decoder_halt_and_range [⟨0, VAGFlag.Nothing, [0,0,0,0,0,0,0,0,0,0,0,0,0,0]⟩,
      ⟨0, VAGFlag.PlaybackEnd, [0,0,0,0,0,0,0,0,0,0,0,0,0,0]⟩] 0 0).2 0
    (by norm_num [decodeAll, decodeChunk, decodeNibbles, chunkNibbles,
      VAG_LUT_DECODER, signExt12, ratTrunc, clampI16, VAGFlag.toNat]; decide),
   (C8_decoder_halt_and_range [⟨0, VAGFlag.Nothing, [0,0,0,0,0,0,0,0,0,0,0,0,0,0]⟩,
      ⟨0, VAGFlag.PlaybackEnd, [0,0,0,0,0,0,0,0,0,0,0,0,0,0]⟩] 0 0).1⟩

/-! ## VAG encoder (`utils/vag/encoder.rs`) -/

/-- The sample-padding step of `WAV2VAGEncoder::new`:
`let rs = samples.len() % VAG_SAMPLE_NIBBL; if rs != 0 {
samples.extend(vec![0; rs]) }` — it appends `len % 28` zeros. -/
def padSamples (samples : List Int) : List Int :=
  if samples.length % 28 ≠ 0 then
    samples ++ List.replicate (samples.length % 28) 0
  else samples

/-- **C5**: evaluation at failing inputs.  A 1-sample input is padded to
length 2, and a 29-sample input to length 30 — neither the next multiple of
28 (which would need 27 more zeros); the code appends `len % 28` zeros
instead of `28 - len % 28`. -/
theorem C5_padding_not_multiple_of_28 :
    (padSamples [5]).length = 2 ∧ (padSamples [5]).length % 28 ≠ 0 ∧
    (padSamples (List.replicate 29 5)).length = 30 ∧
    (padSamples (List.replicate 29 5)).length % 28 ≠ 0 := by
  refine ⟨by decide, by decide, ?_, ?_⟩ <;>
    simp [padSamples, List.length_replicate]

/-- The numeric pipeline of the encoder (`get_predict_and_shift` and the
closed-loop packing) is `f64` arithmetic; the flag logic and iteration
structure do not depend on its values, so the encoder is modelled
parametrically over it: `step` consumes the float state and the 28-sample
group and returns the chunk's `pack_info` byte, its 14 packed sample
bytes, and the updated float state. -/
structure EncOracle (σ : Type) where
  step : σ → List Int → Nat × List Nat × σ

/-- The mutable iterator state (`IteratorData`). -/
structure EncState (σ : Type) where
  idx : Nat
  pos : Nat
  fstate : σ
  lastPackInfo : Option Nat
  quitAtTheNextIteration : Bool

/-- `SampleEncoder::get_flags`, plus whether the `quit_at_the_next_iteration`
latch is set: while more than 28 samples remain, looping mode yields
`LoopRegion` / `LoopStart` at `loop_start` / `LoopEnd` at `loop_end` (with
the latch), non-looping yields `Nothing`; at the final chunk, `LoopEnd`
when looping else `LoopLastBlock`. -/
def getFlags (samplesLen pos idx : Nat) (useLoop : Bool) (lse : Nat × Nat) :
    VAGFlag × Bool :=
  if samplesLen - pos > 28 then
    if useLoop then
      if idx = lse.2 then (VAGFlag.LoopEnd, true)
      else if idx = lse.1 then (VAGFlag.LoopStart, false)
      else (VAGFlag.LoopRegion, false)
    else (VAGFlag.Nothing, false)
  else if useLoop then (VAGFlag.LoopEnd, false) else (VAGFlag.LoopLastBlock, false)

/-- `SampleEncoder::next`, iterated to exhaustion.  When the quit latch is
set, the terminator is emitted only if `last_pack_info` is `Some` (then
`take`n); otherwise the next 28-sample group is encoded, the flags computed,
and `last_pack_info` recorded only when NOT looping. -/
def encodeFrom {σ : Type} (or : EncOracle σ) (samples : List Int)
    (useLoop : Bool) (lse : Nat × Nat) (st : EncState σ) : List VAGChunk :=
  if st.quitAtTheNextIteration then
    match st.lastPackInfo with
    | some pi => [⟨pi, VAGFlag.PlaybackEnd, List.replicate 14 0⟩]
    | none => []
  else if h : st.pos + 28 ≤ samples.length then
    let r := or.step st.fstate ((samples.drop st.pos).take 28)
    let fq := getFlags samples.length st.pos st.idx useLoop lse
    ⟨r.1, fq.1, r.2.1⟩ ::
      encodeFrom or samples useLoop lse
        { idx := st.idx + 1, pos := st.pos + 28, fstate := r.2.2,
          lastPackInfo := if useLoop then st.lastPackInfo else some r.1,
          quitAtTheNextIteration := fq.2 }
  else []
termination_by samples.length - st.pos
decreasing_by
  omega

theorem getFlags_not_loop (samplesLen pos idx : Nat) (lse : Nat × Nat) :
    (getFlags samplesLen pos idx false lse).1 ≠ VAGFlag.PlaybackEnd ∧
    (getFlags samplesLen pos idx false lse).2 = false := by
  unfold getFlags
  split <;> simp

/-- In non-looping mode the quit latch is never set, so the terminator
branch is unreachable: no emitted chunk carries `PlaybackEnd`. -/
theorem encodeFrom_no_terminator {σ : Type} (or : EncOracle σ)
    (samples : List Int) (lse : Nat × Nat) :
    ∀ (st : EncState σ), st.quitAtTheNextIteration = false →
      ∀ c ∈ encodeFrom or samples false lse st,
        c.flags ≠ VAGFlag.PlaybackEnd := by
  intro st
  generalize hk : samples.length - st.pos = k
  induction k using Nat.strong_induction_on generalizing st with
  | _ k ih =>
    intro hquit c hc
    rw [encodeFrom] at hc
    rw [hquit] at hc
    simp only [Bool.false_eq_true, if_false] at hc
    split at hc
    next hpos =>
      rcases List.mem_cons.mp hc with rfl | hc'
      · exact (getFlags_not_loop samples.length st.pos st.idx lse).1
      · exact ih (samples.length - (st.pos + 28)) (by omega)
          { idx := st.idx + 1, pos := st.pos + 28,
            fstate := (or.step st.fstate ((samples.drop st.pos).take 28)).2.2,
            lastPackInfo := some (or.step st.fstate
              ((samples.drop st.pos).take 28)).1,
            quitAtTheNextIteration :=
              (getFlags samples.length st.pos st.idx false lse).2 }
          rfl ((getFlags_not_loop samples.length st.pos st.idx lse).2) c hc'
    next => exact absurd hc (List.not_mem_nil c)

/-- A concrete numeric oracle (any one will do: the flag logic is
independent of the numeric pipeline). -/
def trivialOracle : EncOracle Unit := ⟨fun _ _ => (0, List.replicate 14 0, ())⟩

/-- **C4**: the encoder NEVER emits the synthetic `PlaybackEnd` terminator
in non-looping mode.  The terminator branch requires
`quit_at_the_next_iteration` (set only when looping) together with a stored
`last_pack_info` (stored only when not looping), so it is unreachable; a
non-looping 28-sample input produces exactly one `LoopLastBlock` chunk and
the iterator then ends, contradicting the claimed appended terminator. -/
theorem C4_encoder_never_emits_terminator :
    (∀ (σ : Type) (or : EncOracle σ) (samples : List Int) (lse : Nat × Nat)
        (fs : σ), ∀ c ∈ encodeFrom or samples false lse ⟨0, 0, fs, none, false⟩,
        c.flags ≠ VAGFlag.PlaybackEnd) ∧
    encodeFrom trivialOracle (List.replicate 28 0) false (0, 1000000)
        ⟨0, 0, (), none, false⟩
      = [⟨0, VAGFlag.LoopLastBlock, List.replicate 14 0⟩] := by
  constructor
  · intro σ or samples lse fs c hc
    exact encodeFrom_no_terminator or samples lse _ rfl c hc
  · rw [encodeFrom]
    simp only [List.length_replicate]
    rw [if_neg (by simp), dif_pos (by omega)]
    rw [encodeFrom]
    simp only [getFlags, trivialOracle]
    norm_num

/-- **C4** witness: the single chunk produced by the concrete non-looping
run does not carry `PlaybackEnd`. -/
theorem C4_encoder_never_emits_terminator_witness :
    (⟨0, VAGFlag.LoopLastBlock, List.replicate 14 0⟩ : VAGChunk).flags
      ≠ VAGFlag.PlaybackEnd :=
  C4_encoder_never_emits_terminator.1 Unit trivialOracle
    (List.replicate 28 0) (0, 1000000) ()
    ⟨0, VAGFlag.LoopLastBlock, List.replicate 14 0⟩
    (by rw [C4_encoder_never_emits_terminator.2]
        exact List.mem_singleton.mpr rfl)
